import Mathlib

/-!
Verification of the time-binning, sectioning, gap-removal, error-recovery and
result-combination logic of the `fermipipe` driver scripts
(`run_analysis.py`, `combine_lightcurve_results.py`).

Times are modelled as exact rationals (`ℚ`); numpy arrays of time edges are
modelled as Lean lists.  Fallible operations return `Option`/`Except`.
-/

namespace Fermipipe

/-! ## numpy array operations used by the scripts -/

/-- `np.linspace a b num`: `num` evenly spaced samples from `a` to `b`,
endpoint included.  For `num = 1` numpy returns `[a]`; for `num = 0`, `[]`.
Exact over `ℚ` (for `num = 1` the division below is by `0`, which in `ℚ`
yields `0`, so the single sample is `a`, matching numpy). -/
def linspace (a b : ℚ) (num : ℕ) : List ℚ :=
  (List.range num).map (fun i : ℕ => a + (i : ℚ) * ((b - a) / ((num - 1 : ℕ) : ℚ)))

/-- `np.arange a b step`: values `a + i*step` for `0 ≤ i < ⌈(b-a)/step⌉`
(empty when that ceiling is nonpositive).  numpy raises on `step = 0`;
the scripts never call it with `step = 0` (falsy `binsz` is not dispatched
to `arange`), so that case is mapped to `[]` here. -/
def arange (a b step : ℚ) : List ℚ :=
  if step = 0 then []
  else (List.range (⌈(b - a) / step⌉).toNat).map (fun i : ℕ => a + (i : ℚ) * step)

/-- The section sizes of `np.array_split` on a length-`l` array split into
`n` sections: `l % n` sections of size `l / n + 1` followed by sections of
size `l / n`. -/
def splitSizes (l n : ℕ) : List ℕ :=
  (List.range n).map (fun i => if i < l % n then l / n + 1 else l / n)

/-- Cut a list into consecutive chunks of the given sizes. -/
def chunksOf : List ℕ → List ℚ → List (List ℚ)
  | [], _ => []
  | s :: ss, xs => xs.take s :: chunksOf ss (xs.drop s)

/-- `np.array_split xs n` (for `n ≥ 1`): split `xs` into `n` consecutive
sections whose sizes differ by at most one. -/
def array_split (xs : List ℚ) (n : ℕ) : List (List ℚ) :=
  chunksOf (splitSizes xs.length n) xs

/-- `np.setdiff1d s pt` with `assume_unique=True`: the elements of `s` not
contained in `pt`, in their original order. -/
def setdiff1d (s pt : List ℚ) : List ℚ :=
  s.filter (fun t => !(decide (t ∈ pt)))

/-! ## Configuration model

`fermipy_config` is a YAML-loaded nested dictionary; the scripts read
`selection.tmin`, `selection.tmax`, `selection.target`, the `lightcurve`
sub-dictionary and `fileio.outdir`, and write `lightcurve.time_bins`.
Optional lightcurve keys are `Option`s; Python truthiness of a missing key,
an empty list, or a zero number is `false`. -/

structure FermipyConfig where
  tmin : ℚ
  tmax : ℚ
  target : String
  outdir : String
  /-- `lightcurve.time_bins`: explicit bin edges, if set. -/
  time_bins : Option (List ℚ)
  /-- `lightcurve.nbins`: number of bins, if set. -/
  nbins : Option ℕ
  /-- `lightcurve.binsz`: bin size in seconds, if set. -/
  binsz : Option ℚ
  deriving Repr, DecidableEq

/-- Python truthiness of an optional list value. -/
def truthyList (o : Option (List ℚ)) : Bool :=
  match o with
  | none => false
  | some l => !l.isEmpty

/-- Python truthiness of an optional natural-number value. -/
def truthyNat (o : Option ℕ) : Bool :=
  match o with
  | none => false
  | some n => n != 0

/-- Python truthiness of an optional rational value. -/
def truthyRat (o : Option ℚ) : Bool :=
  match o with
  | none => false
  | some q => q != 0

/-- `get_times` of `run_analysis.py`: the sequence of time-bin edges, chosen
by the precedence `time_bins`, then `nbins`, then `binsz`; `ValueError` when
none of the three is set to a truthy value. -/
def get_times (cfg : FermipyConfig) : Except String (List ℚ) :=
  if truthyList cfg.time_bins then
    .ok (cfg.time_bins.getD [])
  else if truthyNat cfg.nbins then
    .ok (linspace cfg.tmin cfg.tmax (cfg.nbins.getD 0 + 1))
  else if truthyRat cfg.binsz then
    .ok (arange cfg.tmin cfg.tmax (cfg.binsz.getD 0))
  else
    .error "None of time_bins, nbins, or binsz specified"

example : get_times ⟨0, 10, "t", "o", none, some 2, none⟩ = .ok [0, 5, 10] := by
  norm_num [get_times, truthyList, truthyNat, linspace, List.range_succ]

example : get_times ⟨0, 10, "t", "o", none, none, some 4⟩ = .ok [0, 4, 8] := by
  have hc : (⌈(5:ℚ) / 2⌉).toNat = 3 := by
    have h3 : ⌈(5:ℚ) / 2⌉ = 3 := by norm_num [Int.ceil_eq_iff]
    rw [h3]; rfl
  norm_num [get_times, truthyList, truthyNat, truthyRat, arange, hc,
    List.range_succ]

/-! ## Sectioning and gap removal (`run_lightcurve`, lines 132-213)

`run_lightcurve` selects the time edges of one section (padding with the
first edge of the next section so that no bin is lost at the boundary), then
drops every edge encompassed by a known no-data period. -/

/-- The selected time edges for one section, before gap removal
(`run_lightcurve` lines 136-146).  `numSections = none` selects all edges.
Otherwise the edges are `np.array_split` section `sec`, extended — when a
non-empty next section exists — by the first edge of the next section. -/
def selectedTimesOf (times : List ℚ) (numSections : Option ℕ) (sec : ℕ) :
    List ℚ :=
  match numSections with
  | none => times
  | some n =>
    let split_times := array_split times n
    let sel := split_times.getD sec []
    if sec < n - 1 then
      match (split_times.getD (sec + 1) []).head? with
      | some last_bin => sel ++ [last_bin]
      | none => sel
    else sel

/-- One iteration of the gap-removal loop (`run_lightcurve` lines 198-209):
collect the edges encompassed by the period; if there are none, keep the
edges unchanged, otherwise remove them with `np.setdiff1d`. -/
def removeGapPeriod (sel : List ℚ) (p : ℚ × ℚ) : List ℚ :=
  let period_times := sel.filter (fun t => decide (p.1 ≤ t) && decide (t ≤ p.2))
  if period_times.isEmpty then sel
  else setdiff1d sel period_times

/-- The gap-removal loop over all no-data periods. -/
def removeGapBins (sel : List ℚ) (periods : List (ℚ × ℚ)) : List ℚ :=
  periods.foldl removeGapPeriod sel

/-- The final `time_bins` list that `run_lightcurve` writes into
`fermipy_config['lightcurve']['time_bins']` and hands to `gta.lightcurve`:
`get_times`, then section selection, then gap removal.  `Except.error`
propagates the `ValueError` of `get_times`. -/
def run_lightcurve_time_bins (cfg : FermipyConfig) (numSections : Option ℕ)
    (sec : ℕ) (periods : List (ℚ × ℚ)) : Except String (List ℚ) :=
  (get_times cfg).map
    (fun times => removeGapBins (selectedTimesOf times numSections sec) periods)

example :
    removeGapBins [0, 1, 2, 3, 10] [(1, 2)] = [0, 3, 10] := by
  norm_num [removeGapBins, removeGapPeriod, setdiff1d, List.filter]

example :
    removeGapBins [0, 10] [(2, 3)] = [0, 10] := by
  norm_num [removeGapBins, removeGapPeriod, setdiff1d, List.filter]

example :
    array_split [0, 1, 2, 3, 4] 2 = [[0, 1, 2], [3, 4]] := by
  norm_num [array_split, splitSizes, chunksOf, List.range_succ]

example :
    selectedTimesOf [0, 1, 2, 3, 4] (some 2) 0 = [0, 1, 2, 3] := by
  norm_num [selectedTimesOf, array_split, splitSizes, chunksOf, List.range_succ]

/-! ## Exception handling around `gta.lightcurve` (lines 226-246)

A Python exception is modelled as its type together with its message.
Subclassing is not modelled: the scripts only ever test exact types
(`type(err) == RuntimeError`) and the catch tuple.  In Python 3 `IOError`
is an alias of `OSError`; both names appear in the catch tuple, so they are
kept as distinct constructors with identical treatment. -/

inductive ExcType where
  | attributeError
  | ioError
  | osError
  | runtimeError
  | typeError
  | fitsVerifyError
  | valueError
  | otherExc (typeName : String)
  deriving Repr, DecidableEq

/-- An exception: its (exact) type and its message string. -/
structure Exc where
  ty : ExcType
  msg : String
  deriving Repr, DecidableEq

/-- Membership in the catch tuple
`(AttributeError, IOError, OSError, RuntimeError, TypeError, fits.VerifyError)`. -/
def caughtType (t : ExcType) : Bool :=
  match t with
  | .attributeError => true
  | .ioError => true
  | .osError => true
  | .runtimeError => true
  | .typeError => true
  | .fitsVerifyError => true
  | _ => false

/-- The allow-list of `RuntimeError` message starts (lines 233-240). -/
def allowed_runtime_error_starts : List String :=
  [ "File not in FITS or Root format",
    "Requested energy",
    "Could not open FITS extension",
    "Failed to converge after",
    "File not found",
    "mage in extension" ]

/-- `Python str.startswith`, on character lists. -/
def isStartOf : List Char → List Char → Bool
  | [], _ => true
  | _ :: _, [] => false
  | a :: ps, b :: ss => a == b && isStartOf ps ss

/-- `str(err).startswith(start)` for some allow-listed `start`. -/
def allowedStart (msg : String) : Bool :=
  allowed_runtime_error_starts.any (fun s => isStartOf s.toList msg.toList)

/-- What the `except` clause around `gta.lightcurve` decides for an
exception `e` (lines 226-246): exceptions outside the catch tuple propagate
uncaught; a caught `RuntimeError` whose message starts with no allow-listed
text is re-raised (`raise err`); every other caught exception falls through
to the delete-and-restart recovery code. -/
inductive ErrDecision where
  | recover
  | reraise
  | propagate
  deriving Repr, DecidableEq

def handleLightcurveExc (e : Exc) : ErrDecision :=
  if caughtType e.ty then
    if e.ty = .runtimeError then
      if allowedStart e.msg then .recover else .reraise
    else .recover
  else .propagate

example : handleLightcurveExc ⟨.runtimeError, "File not found blah"⟩ = .recover := by
  decide
example : handleLightcurveExc ⟨.runtimeError, "Image in extension 3"⟩ = .reraise := by
  decide
example : handleLightcurveExc ⟨.attributeError, "anything at all"⟩ = .recover := by
  decide
example : handleLightcurveExc ⟨.valueError, "x"⟩ = .propagate := by decide

/-! ## The per-bin output directory recovery (lines 248-270) -/

/-- A per-bin output directory matched by `glob("lightcurve_*")`: its
basename and its modification time. -/
structure DirEntry where
  basename : String
  mtime : ℤ
  deriving Repr, DecidableEq

/-- Split a character list on `_`, as Python `str.split('_')` does. -/
def splitUnderscore : List Char → List (List Char)
  | [] => [[]]
  | x :: xs =>
    match splitUnderscore xs with
    | [] => [[]]
    | g :: gs => if x = '_' then [] :: g :: gs else (x :: g) :: gs

/-- The digit value of a character, if it is a decimal digit. -/
def digitVal (c : Char) : Option ℕ :=
  if c.isDigit then some (c.toNat - Char.toNat '0') else none

/-- Decimal digits to a natural number; `none` on a non-digit or on the
empty string. -/
def parseNat? (cs : List Char) : Option ℕ :=
  match cs with
  | [] => none
  | _ =>
    cs.foldl
      (fun acc c =>
        match acc, digitVal c with
        | some n, some d => some (n * 10 + d)
        | _, _ => none)
      (some 0)

/-- Python `int(...)` on a plain decimal string (optionally signed);
`none` models the `ValueError` on anything else. -/
def parseInt? (cs : List Char) : Option ℤ :=
  match cs with
  | c :: rest =>
    if c = '-' then (parseNat? rest).map (fun n => -(n : ℤ))
    else (parseNat? cs).map (fun n => (n : ℤ))
  | [] => none

/-- The name-encoded bin edges: the directory basename
(`bin_dir.split('/')[-1]`) split on `_`, dropping the leading `lightcurve`
component (line 254). -/
def binEdgesOf (basename : String) : List (List Char) :=
  (splitUnderscore basename.toList).drop 1

/-- The `selected` predicate of lines 253-258: parse each name-encoded edge
with `int(...)` and require membership in the current selected time bins.
Python `int` on a non-numeric string raises `ValueError`; that is `none`
here.  Mirroring the early `return False`, edges after a non-member edge
are never parsed. -/
def dirSelected (selected_times : List ℚ) : List (List Char) → Option Bool
  | [] => some true
  | e :: rest =>
    match parseInt? e with
    | none => none
    | some k =>
      if (k : ℚ) ∈ selected_times then dirSelected selected_times rest
      else some false

/-- `[bin_dir for bin_dir in bin_dirs if selected(bin_dir)]`: `none` when
any `int(...)` parse raises before `selected` settles. -/
def selectedBinDirs (selected_times : List ℚ) :
    List DirEntry → Option (List DirEntry)
  | [] => some []
  | d :: ds =>
    match dirSelected selected_times (binEdgesOf d.basename) with
    | none => none
    | some b =>
      match selectedBinDirs selected_times ds with
      | none => none
      | some rest => some (if b then d :: rest else rest)

/-- `max(selected_bin_dirs, key=os.path.getmtime)` (line 263): the first
entry of maximal mtime (Python `max` keeps the earliest maximal element);
`none` on an empty list (Python raises `ValueError`). -/
def maxByMtime : List DirEntry → Option DirEntry
  | [] => none
  | d :: ds => some (ds.foldl (fun best x => if best.mtime < x.mtime then x else best) d)

/-- The directory `run_lightcurve` removes with `shutil.rmtree` during
recovery: the most recently modified among the directories whose
name-encoded edges all belong to the selected time bins. -/
def dirToDelete (selected_times : List ℚ) (bin_dirs : List DirEntry) :
    Option DirEntry :=
  match selectedBinDirs selected_times bin_dirs with
  | none => none
  | some sel => maxByMtime sel

example :
    dirToDelete [100, 200, 300]
      [⟨"lightcurve_100_200", 7⟩, ⟨"lightcurve_200_300", 9⟩,
       ⟨"lightcurve_300_400", 50⟩] = some ⟨"lightcurve_200_300", 9⟩ := by
  have e1 : binEdgesOf "lightcurve_100_200" = [['1','0','0'], ['2','0','0']] := by
    decide
  have e2 : binEdgesOf "lightcurve_200_300" = [['2','0','0'], ['3','0','0']] := by
    decide
  have e3 : binEdgesOf "lightcurve_300_400" = [['3','0','0'], ['4','0','0']] := by
    decide
  have p1 : parseInt? ['1','0','0'] = some 100 := by decide
  have p2 : parseInt? ['2','0','0'] = some 200 := by decide
  have p3 : parseInt? ['3','0','0'] = some 300 := by decide
  have p4 : parseInt? ['4','0','0'] = some 400 := by decide
  norm_num [dirToDelete, selectedBinDirs, e1, e2, e3, dirSelected, maxByMtime,
    p1, p2, p3, p4]

/-! ## The ROI-load retry loop (lines 218-224)

`for __ in range(3): try: gta.load_roi(...); break except RuntimeError:
time.sleep(5)`.  An attempt either succeeds or raises `RuntimeError` (the
only exception type this loop interacts with); the oracle `ok k` says
whether attempt number `k` (0-based) succeeds.  The loop's observable
behaviour is its event trace. -/

inductive Action where
  | loadAttempt (k : ℕ)
  | sleepSecs (s : ℕ)
  | lightcurveCall
  deriving Repr, DecidableEq

/-- The trace of the retry loop: `n` remaining iterations, next attempt
index `k`.  On success the loop `break`s at once; on `RuntimeError` it
sleeps 5 seconds and iterates (also after the final failed attempt — the
`sleep` is inside the `except` body). -/
def loadRoiTraceAux (ok : ℕ → Bool) : ℕ → ℕ → List Action
  | 0, _ => []
  | n + 1, k =>
    Action.loadAttempt k ::
      (if ok k then []
       else Action.sleepSecs 5 :: loadRoiTraceAux ok n (k + 1))

/-- The full trace of `for __ in range(3): ...`. -/
def loadRoiTrace (ok : ℕ → Bool) : List Action :=
  loadRoiTraceAux ok 3 0

/-- Number of `load_roi` attempts in a trace. -/
def countAttempts (tr : List Action) : ℕ :=
  tr.countP (fun a => match a with | .loadAttempt _ => true | _ => false)

/-- Whether the saved ROI state was successfully loaded by the loop. -/
def roiLoaded (ok : ℕ → Bool) : Bool :=
  ok 0 || ok 1 || ok 2

/-- Lines 218-227: after the retry loop — whether or not any attempt
succeeded — control falls through to `gta.lightcurve(...)`.  The loop
catches every `RuntimeError` and re-raises nothing. -/
def loadThenLightcurve (ok : ℕ → Bool) : List Action :=
  loadRoiTrace ok ++ [Action.lightcurveCall]

example : loadRoiTrace (fun _ => false) =
    [.loadAttempt 0, .sleepSecs 5, .loadAttempt 1, .sleepSecs 5,
     .loadAttempt 2, .sleepSecs 5] := by decide

example : loadRoiTrace (fun k => k == 1) =
    [.loadAttempt 0, .sleepSecs 5, .loadAttempt 1] := by decide

/-! ## The recovery branch and the restart call (lines 248-270) -/

/-- The arguments `run_lightcurve` passes to its recursive restart
(lines 269-270). -/
structure RestartCall where
  cfg : FermipyConfig
  pfx : String
  numSections : Option ℕ
  sec : ℕ
  periods : List (ℚ × ℚ)
  deriving Repr, DecidableEq

/-- The outcome of the recovery branch once an exception has been decided
recoverable: either a directory is deleted and the analysis restarted, or
the recovery code itself crashes (unparseable directory name, or `max` on
an empty candidate list). -/
inductive RecoveryOutcome where
  | deleteAndRestart (deleted : DirEntry) (call : RestartCall)
  | recoveryCrash
  deriving Repr, DecidableEq

/-- Lines 248-270: glob the `lightcurve_*` directories, keep those whose
name-encoded edges all belong to `selected_times`, remove the most recently
modified one, and restart with the original (pre-mutation) config, the same
`pfx`, `num_sections` and `sec`, and the already-computed no-data
periods. -/
def recoveryBranch (original_config : FermipyConfig) (pfx : String)
    (numSections : Option ℕ) (sec : ℕ) (periods : List (ℚ × ℚ))
    (selected_times : List ℚ) (bin_dirs : List DirEntry) : RecoveryOutcome :=
  match dirToDelete selected_times bin_dirs with
  | none => .recoveryCrash
  | some d =>
    .deleteAndRestart d ⟨original_config, pfx, numSections, sec, periods⟩

/-! ## The chain of recursive restarts (C9)

`run_lightcurve` snapshots `original_config = copy.deepcopy(fermipy_config)`
on entry (line 133) before line 213 mutates
`fermipy_config['lightcurve']['time_bins']`; every restart receives
`original_config` and the already-computed `no_data_periods`
(lines 269-270).  Configs are immutable values here, so `deepcopy` is the
identity; the dataflow — which value each call uses — is modelled
exactly.  `crashes` lists, per round, whether `gta.lightcurve` fails
recoverably in that round; the chain is a faithful abstraction of the
recursion with one round per list entry plus a final successful round. -/

/-- The config mutation of line 213. -/
def setTimeBins (cfg : FermipyConfig) (tb : List ℚ) : FermipyConfig :=
  { cfg with time_bins := some tb }

/-- One round of `run_lightcurve`, as the pair
(no-data periods were computed this round?, config handed to `GTAnalysis`).
`noDataOf` abstracts `get_no_data_periods()` (a pure function of the FITS
files and the config; its internals read files and are out of scope). -/
def lightcurveRound (noDataOf : FermipyConfig → List (ℚ × ℚ))
    (cfg : FermipyConfig) (numSections : Option ℕ) (sec : ℕ)
    (periodsArg : Option (List (ℚ × ℚ))) :
    Bool × Except String FermipyConfig :=
  (periodsArg.isNone,
    (run_lightcurve_time_bins cfg numSections sec
        (periodsArg.getD (noDataOf cfg))).map (setTimeBins cfg))

/-- The chain of recursive restarts: each entry of `crashes` is one round
that ends in a recoverable crash and restarts with `original_config` (the
entry config, unmutated) and `some periods`; the final round succeeds.
Returns the rounds' observations, in order. -/
def runLightcurveChain (noDataOf : FermipyConfig → List (ℚ × ℚ))
    (cfg : FermipyConfig) (numSections : Option ℕ) (sec : ℕ) :
    Option (List (ℚ × ℚ)) → ℕ → List (Bool × Except String FermipyConfig)
  | periodsArg, 0 => [lightcurveRound noDataOf cfg numSections sec periodsArg]
  | periodsArg, numCrashes + 1 =>
    lightcurveRound noDataOf cfg numSections sec periodsArg ::
      runLightcurveChain noDataOf cfg numSections sec
        (some (periodsArg.getD (noDataOf cfg))) numCrashes

/-! ## `combine_lightcurve_results.py`

A per-section result file is a dictionary; iteration order of
`results.items()` is its list order, with distinct keys.  A value is either
a numpy array (`varr`) or some other Python object (`vother`; the
non-array keys `name`, `file`, `ts_var`, `config` hold such values; the
payload is abstracted as a string).  The combined dictionary value is an
array built by `np.concatenate` (`carr`), a Python list built by `append`
(`clist`), or a non-array stored as-is under an array key (`cother`);
`none` models the exceptions the script does not catch (`KeyError` on
`results['tmin']`, `np.concatenate`/`.append` on ill-typed values). -/

inductive LCVal where
  | varr (xs : List ℚ)
  | vother (payload : String)
  deriving Repr, DecidableEq

inductive CombVal where
  | carr (xs : List ℚ)
  | clist (vs : List LCVal)
  | cother (payload : String)
  deriving Repr, DecidableEq

/-- The keys whose values are collected into a list instead of
concatenated (line 30). -/
def non_array_keys : List String := ["name", "file", "ts_var", "config"]

/-- Dictionary access on an association list: the first binding wins. -/
def lookupKey {β : Type} (k : String) : List (String × β) → Option β
  | [] => none
  | kv :: rest => if kv.1 = k then some kv.2 else lookupKey k rest

/-- Replace the value stored under a present key (dict update keeps the
key's position). -/
def updateVal (acc : List (String × CombVal)) (k : String) (v : CombVal) :
    List (String × CombVal) :=
  acc.map (fun p => if p.1 = k then (k, v) else p)

/-- Lines 31-42, one `(key, value)` pair: `append` into the list for a
non-array key, `np.concatenate` for an array key; a first occurrence is
stored as-is (a new dict key goes to the end).  `none` where Python would
raise on an ill-typed value. -/
def processPair (acc : List (String × CombVal)) (kv : String × LCVal) :
    Option (List (String × CombVal)) :=
  if kv.1 ∈ non_array_keys then
    match lookupKey kv.1 acc with
    | none => some (acc ++ [(kv.1, .clist [kv.2])])
    | some (.clist vs) => some (updateVal acc kv.1 (.clist (vs ++ [kv.2])))
    | some _ => none
  else
    match lookupKey kv.1 acc with
    | none =>
      match kv.2 with
      | .varr xs => some (acc ++ [(kv.1, .carr xs)])
      | .vother s => some (acc ++ [(kv.1, .cother s)])
    | some (.carr ys) =>
      match kv.2 with
      | .varr xs => some (updateVal acc kv.1 (.carr (ys ++ xs)))
      | .vother _ => none
    | some _ => none

/-- All pairs of one result file, in order. -/
def processPairs (acc : List (String × CombVal)) :
    List (String × LCVal) → Option (List (String × CombVal))
  | [] => some acc
  | kv :: rest =>
    match processPair acc kv with
    | none => none
    | some acc2 => processPairs acc2 rest

/-- One section's file: line 28 reads `results['tmin']` (a `KeyError`
crashes the script), then lines 31-42 fold every pair into the combined
dictionary. -/
def processFile (acc : List (String × CombVal)) (f : List (String × LCVal)) :
    Option (List (String × CombVal)) :=
  match lookupKey "tmin" f with
  | none => none
  | some _ => processPairs acc f

/-- The loop over section indices (lines 21-42): a missing file
(`IOError`) is announced and skipped; an existing file is folded in. -/
def combineAux (files : ℕ → Option (List (String × LCVal))) :
    List ℕ → List (String × CombVal) → Option (List (String × CombVal))
  | [], acc => some acc
  | i :: is, acc =>
    match files i with
    | none => combineAux files is acc
    | some f =>
      match processFile acc f with
      | none => none
      | some acc2 => combineAux files is acc2

/-- `combine_lightcurve_results`: fold sections `0, ..., num_sections - 1`
into an initially empty dictionary.  `files i` is the parsed content of
`<outdir>/<pfx>_lightcurve_<i>.npy`, or `none` when that file is missing. -/
def combine_lightcurve_results (files : ℕ → Option (List (String × LCVal)))
    (num_sections : ℕ) : Option (List (String × CombVal)) :=
  combineAux files (List.range num_sections) []

example :
    combine_lightcurve_results
      (fun i =>
        if i = 0 then some [("tmin", .varr [0, 5]), ("name", .vother "src")]
        else if i = 2 then some [("tmin", .varr [10]), ("name", .vother "src")]
        else none)
      3
    = some [("tmin", .carr [0, 5, 10]),
            ("name", .clist [.vother "src", .vother "src"])] := by
  simp [combine_lightcurve_results, combineAux, processFile, processPairs,
    processPair, non_array_keys, updateVal, List.range_succ, lookupKey]

/-! ## The command line of `run_analysis.py` (lines 281-316) -/

/-- The parsed argparse namespace. -/
structure CliArgs where
  config : String
  pfx : Option String
  lightcurve : Bool
  sec : Option ℤ
  deriving Repr, DecidableEq

/-- The argparse configuration of lines 284-292: one required positional
(`config`), `-p`/`--prefix` taking a value, `-l`/`--lightcurve` a flag, and
`-s`/`--section` taking an `int`.  `none` models argparse exiting with a
usage error (missing positional, unknown option, missing option value,
non-integer section, extra positional). -/
def parseArgv : List String → Option String → Option String → Bool →
    Option ℤ → Option CliArgs
  | [], cfg?, p, l, s =>
    match cfg? with
    | some c => some ⟨c, p, l, s⟩
    | none => none
  | [t], cfg?, p, l, s =>
    if t = "-p" ∨ t = "--prefix" then none
    else if t = "-l" ∨ t = "--lightcurve" then
      (match cfg? with
       | some c => some ⟨c, p, true, s⟩
       | none => none)
    else if t = "-s" ∨ t = "--section" then none
    else if t.toList.head? = some '-' then none
    else if cfg?.isSome then none
    else some ⟨t, p, l, s⟩
  | t :: v :: rest2, cfg?, p, l, s =>
    if t = "-p" ∨ t = "--prefix" then parseArgv rest2 cfg? (some v) l s
    else if t = "-l" ∨ t = "--lightcurve" then
      parseArgv (v :: rest2) cfg? p true s
    else if t = "-s" ∨ t = "--section" then
      (parseInt? v.toList).bind (fun k => parseArgv rest2 cfg? p l (some k))
    else if t.toList.head? = some '-' then none
    else if cfg?.isSome then none
    else parseArgv (v :: rest2) (some t) p l s

/-- `run_analysis.py <argv>` through argparse. -/
def parseRunAnalysisArgv (argv : List String) : Option CliArgs :=
  parseArgv argv none none false none

/-- Python truthiness of an optional string (line 296 tests
`if args.prefix`). -/
def truthyStr (o : Option String) : Bool :=
  match o with
  | none => false
  | some s => !s.isEmpty

/-- The pipeline configuration keys the `__main__` block reads.  An absent
key is `none` (reading it raises `KeyError`); `num_sections` may be
present but null (`some none`), which turns sectioning off. -/
structure PipelineConfig where
  pfx : Option String
  num_sections : Option (Option ℕ)
  sec : Option ℤ
  deriving Repr, DecidableEq

/-- Which routine `__main__` invokes, with the overrides resolved. -/
inductive Dispatch where
  | lightcurveMode (pfx : String) (numSections : Option ℕ) (sec : ℤ)
  | analysisMode (pfx : String)
  deriving Repr, DecidableEq

/-- Lines 294-322: resolve the prefix (`args.prefix` when truthy, else the
config's `prefix` — whose absence is then a `KeyError`), and in lightcurve
mode resolve the section (`args.section` when not `None`, else the
config's `section`) and read `num_sections`; `none` models an uncaught
`KeyError`. -/
def mainDispatch (args : CliArgs) (pc : PipelineConfig) : Option Dispatch :=
  match (if truthyStr args.pfx then args.pfx else pc.pfx) with
  | none => none
  | some p =>
    if args.lightcurve then
      match pc.num_sections with
      | none => none
      | some ns =>
        match (match args.sec with | some s => some s | none => pc.sec) with
        | none => none
        | some s => some (.lightcurveMode p ns s)
    else some (.analysisMode p)

example :
    (parseRunAnalysisArgv ["cfg.yml", "-l", "-s", "4"]).map
      (fun a => mainDispatch a ⟨some "crab", some (some 8), some 0⟩)
    = some (some (.lightcurveMode "crab" (some 8) 4)) := by decide

example : parseRunAnalysisArgv ["-l"] = none := by decide

/-! ## Theorems -/

/-- C3, counterexample: an `AttributeError` (a caught, non-`RuntimeError`
type) reaches the recovery code although its message starts with none of
the allow-listed prefixes, refuting "recoverable if and only if its message
starts with one of the allow-listed external-library message prefixes". -/
theorem recover_without_allowed_start :
    handleLightcurveExc ⟨.attributeError, "boom"⟩ = .recover ∧
    allowedStart "boom" = false := by
  decide

/-- C3 (amended): an exception of one of the caught types is recoverable
unless it is a `RuntimeError` whose message starts with none of the
allow-listed prefixes — only `RuntimeError` messages are checked; such a
`RuntimeError` is re-raised, and an exception of any other type propagates
to the caller unchanged. -/
theorem lightcurve_exc_decision_spec (e : Exc) :
    (handleLightcurveExc e = .recover ↔
      caughtType e.ty = true ∧ (e.ty ≠ .runtimeError ∨ allowedStart e.msg = true))
    ∧ (handleLightcurveExc e = .reraise ↔
      e.ty = .runtimeError ∧ allowedStart e.msg = false)
    ∧ (handleLightcurveExc e = .propagate ↔ caughtType e.ty = false) := by
  obtain ⟨t, m⟩ := e
  cases t <;> by_cases hm : allowedStart m = true <;>
    simp_all [handleLightcurveExc, caughtType]

theorem countAttempts_loadRoiTraceAux (ok : ℕ → Bool) :
    ∀ n k0, countAttempts (loadRoiTraceAux ok n k0) ≤ n := by
  intro n
  induction n with
  | zero => intro k0; simp [loadRoiTraceAux, countAttempts]
  | succ n ih =>
    intro k0
    by_cases h : ok k0 = true
    · simp [loadRoiTraceAux, countAttempts, h]
    · have hb : ok k0 = false := by simpa using h
      have hn := ih (k0 + 1)
      unfold countAttempts at hn ⊢
      simp only [loadRoiTraceAux, hb, Bool.false_eq_true, if_false,
        List.countP_cons]
      norm_num
      omega

/-- The first event of a non-exhausted retry loop is the attempt at the
starting index. -/
theorem loadRoiTraceAux_head (ok : ℕ → Bool) (n k0 : ℕ) (hn : n ≠ 0) :
    (loadRoiTraceAux ok n k0).get? 0 = some (.loadAttempt k0) := by
  cases n with
  | zero => exact absurd rfl hn
  | succ n => simp [loadRoiTraceAux]

theorem loadRoiTraceAux_attempt_spec (ok : ℕ → Bool) :
    ∀ n k0 i k,
      (loadRoiTraceAux ok n k0).get? i = some (.loadAttempt k) →
      (ok k = false →
        (loadRoiTraceAux ok n k0).get? (i + 1) = some (.sleepSecs 5)
        ∧ (i + 2 < (loadRoiTraceAux ok n k0).length →
            (loadRoiTraceAux ok n k0).get? (i + 2) = some (.loadAttempt (k + 1))))
      ∧ (ok k = true → (loadRoiTraceAux ok n k0).length = i + 1) := by
  intro n
  induction n with
  | zero => intro k0 i k hi; simp [loadRoiTraceAux] at hi
  | succ n ih =>
    intro k0 i k hi
    by_cases hok : ok k0 = true
    · have ht : loadRoiTraceAux ok (n + 1) k0 = [.loadAttempt k0] := by
        simp [loadRoiTraceAux, hok]
      rw [ht] at hi ⊢
      rcases i with _ | i
      · simp at hi
        subst hi
        exact ⟨fun hk => by rw [hok] at hk; exact absurd hk (by simp),
               fun _ => by simp⟩
      · simp at hi
    · have hof : ok k0 = false := by simpa using hok
      have ht : loadRoiTraceAux ok (n + 1) k0 =
          .loadAttempt k0 :: .sleepSecs 5 :: loadRoiTraceAux ok n (k0 + 1) := by
        simp [loadRoiTraceAux, hof]
      rw [ht] at hi ⊢
      rcases i with _ | _ | i
      · simp at hi
        subst hi
        refine ⟨fun _ => ⟨by simp, fun hlen => ?_⟩, fun hk => ?_⟩
        · simp only [List.get?_cons_succ]
          have hn : n ≠ 0 := by
            intro h0
            rw [h0] at hlen
            simp [loadRoiTraceAux] at hlen
          exact loadRoiTraceAux_head ok n (k0 + 1) hn
        · rw [hof] at hk; exact absurd hk (by simp)
      · simp at hi
      · simp only [List.get?_cons_succ] at hi
        have hspec := ih (k0 + 1) i k hi
        refine ⟨fun hk => ?_, fun hk => ?_⟩
        · obtain ⟨h1, h2⟩ := (hspec.1 hk)
          refine ⟨by simpa using h1, fun hlen => ?_⟩
          have hl2 : i + 2 < (loadRoiTraceAux ok n (k0 + 1)).length := by
            simp at hlen; omega
          simpa using h2 hl2
        · have := hspec.2 hk
          simp [this]

/-- C5: the ROI-load retry loop makes at most 3 attempts; a failed attempt
is followed immediately by a 5-second sleep, then (when any iteration
remains) by the next attempt; and a successful attempt is the last event
of the loop, which exits at once. -/
theorem load_roi_retry_spec (ok : ℕ → Bool) :
    countAttempts (loadRoiTrace ok) ≤ 3
    ∧ (∀ i k, (loadRoiTrace ok).get? i = some (.loadAttempt k) →
        ok k = false →
        (loadRoiTrace ok).get? (i + 1) = some (.sleepSecs 5)
        ∧ (i + 2 < (loadRoiTrace ok).length →
            (loadRoiTrace ok).get? (i + 2) = some (.loadAttempt (k + 1))))
    ∧ (∀ i k, (loadRoiTrace ok).get? i = some (.loadAttempt k) →
        ok k = true → (loadRoiTrace ok).length = i + 1) := by
  refine ⟨countAttempts_loadRoiTraceAux ok 3 0, fun i k hi hk => ?_, fun i k hi hk => ?_⟩
  · exact (loadRoiTraceAux_attempt_spec ok 3 0 i k hi).1 hk
  · exact (loadRoiTraceAux_attempt_spec ok 3 0 i k hi).2 hk

/-- C5, witness: with an oracle whose second attempt succeeds, attempt 0
fails and is followed by a 5-second sleep. -/
theorem load_roi_retry_spec_witness :
    (loadRoiTrace (fun k => k == 1)).get? (0 + 1) = some (.sleepSecs 5)
    ∧ (0 + 2 < (loadRoiTrace (fun k => k == 1)).length →
        (loadRoiTrace (fun k => k == 1)).get? (0 + 2) = some (.loadAttempt (0 + 1))) :=
  (load_roi_retry_spec (fun k => k == 1)).2.1 0 0 (by decide) (by decide)

/-- C10: when every attempt to load the ROI state raises `RuntimeError`,
the loop runs its three attempts (each followed by the 5-second sleep),
terminates without re-raising, and control proceeds to `gta.lightcurve`
with the saved ROI state not loaded. -/
theorem load_failure_swallowed (ok : ℕ → Bool)
    (h : ∀ k, k < 3 → ok k = false) :
    loadThenLightcurve ok =
      [.loadAttempt 0, .sleepSecs 5, .loadAttempt 1, .sleepSecs 5,
       .loadAttempt 2, .sleepSecs 5, .lightcurveCall]
    ∧ roiLoaded ok = false
    ∧ Action.lightcurveCall ∈ loadThenLightcurve ok := by
  have h0 := h 0 (by omega)
  have h1 := h 1 (by omega)
  have h2 := h 2 (by omega)
  refine ⟨?_, ?_, ?_⟩
  · simp [loadThenLightcurve, loadRoiTrace, loadRoiTraceAux, h0, h1, h2]
  · simp [roiLoaded, h0, h1, h2]
  · simp [loadThenLightcurve]

/-- C10, witness: the always-failing oracle. -/
theorem load_failure_swallowed_witness :
    loadThenLightcurve (fun _ => false) =
      [.loadAttempt 0, .sleepSecs 5, .loadAttempt 1, .sleepSecs 5,
       .loadAttempt 2, .sleepSecs 5, .lightcurveCall] :=
  (load_failure_swallowed (fun _ => false) (fun _ _ => rfl)).1

theorem foldl_mtime_max_spec :
    ∀ (es : List DirEntry) (e : DirEntry),
      (es.foldl (fun best x => if best.mtime < x.mtime then x else best) e)
        ∈ e :: es
      ∧ e.mtime ≤
        (es.foldl (fun best x => if best.mtime < x.mtime then x else best) e).mtime
      ∧ ∀ x ∈ es, x.mtime ≤
        (es.foldl (fun best x => if best.mtime < x.mtime then x else best) e).mtime := by
  intro es
  induction es with
  | nil => intro e; simp
  | cons x es ih =>
    intro e
    by_cases hc : e.mtime < x.mtime
    · simp only [List.foldl_cons, if_pos hc]
      obtain ⟨hmem, hle, hall⟩ := ih x
      refine ⟨List.mem_cons.mpr (Or.inr hmem), le_trans (le_of_lt hc) hle, ?_⟩
      intro y hy
      rcases List.mem_cons.mp hy with h1 | h1
      · exact h1 ▸ hle
      · exact hall y h1
    · simp only [List.foldl_cons, if_neg hc]
      obtain ⟨hmem, hle, hall⟩ := ih e
      refine ⟨?_, hle, ?_⟩
      · rcases List.mem_cons.mp hmem with h1 | h1
        · exact List.mem_cons.mpr (Or.inl h1)
        · exact List.mem_cons.mpr (Or.inr (List.mem_cons.mpr (Or.inr h1)))
      · intro y hy
        rcases List.mem_cons.mp hy with h1 | h1
        · exact h1 ▸ le_trans (le_of_not_lt hc) hle
        · exact hall y h1

theorem maxByMtime_spec (l : List DirEntry) (d : DirEntry)
    (h : maxByMtime l = some d) :
    d ∈ l ∧ ∀ x ∈ l, x.mtime ≤ d.mtime := by
  cases l with
  | nil => simp [maxByMtime] at h
  | cons e es =>
    simp only [maxByMtime, Option.some_inj] at h
    obtain ⟨hmem, hle, hall⟩ := foldl_mtime_max_spec es e
    rw [h] at hmem hle hall
    exact ⟨hmem, fun x hx => by
      rcases List.mem_cons.mp hx with h1 | h1
      · exact h1 ▸ hle
      · exact hall x h1⟩

theorem selectedBinDirs_spec :
    ∀ (dirs sel : List DirEntry) (ts : List ℚ),
      selectedBinDirs ts dirs = some sel →
      ∀ d, d ∈ sel ↔
        (d ∈ dirs ∧ dirSelected ts (binEdgesOf d.basename) = some true) := by
  intro dirs
  induction dirs with
  | nil =>
    intro sel ts h d
    simp only [selectedBinDirs, Option.some_inj] at h
    subst h
    simp
  | cons d0 ds ih =>
    intro sel ts h d
    simp only [selectedBinDirs] at h
    rcases hsel : dirSelected ts (binEdgesOf d0.basename) with _ | b
    · rw [hsel] at h; exact absurd h (by simp)
    · rw [hsel] at h
      rcases hrest : selectedBinDirs ts ds with _ | rest

      · rw [hrest] at h; exact absurd h (by simp)
      · rw [hrest] at h
        simp only [Option.some_inj] at h
        have hiff := ih rest ts hrest
        cases b with
        | true =>
          rw [← h]
          constructor
          · intro hd
            rcases List.mem_cons.mp hd with h1 | h1
            · exact ⟨List.mem_cons.mpr (Or.inl h1), h1 ▸ hsel⟩
            · obtain ⟨hm, hs⟩ := (hiff d).mp h1
              exact ⟨List.mem_cons.mpr (Or.inr hm), hs⟩
          · intro ⟨hm, hs⟩
            rcases List.mem_cons.mp hm with h1 | h1
            · exact List.mem_cons.mpr (Or.inl h1)
            · exact List.mem_cons.mpr (Or.inr ((hiff d).mpr ⟨h1, hs⟩))
        | false =>
          rw [← h]
          constructor
          · intro hd
            obtain ⟨hm, hs⟩ := (hiff d).mp hd
            exact ⟨List.mem_cons.mpr (Or.inr hm), hs⟩
          · intro ⟨hm, hs⟩
            rcases List.mem_cons.mp hm with h1 | h1
            · rw [h1] at hs
              rw [hs] at hsel
              exact absurd hsel (by simp)
            · exact (hiff d).mpr ⟨h1, hs⟩

/-- C4: when the recovery branch runs, exactly one per-bin directory is
deleted — the most recently modified among the `lightcurve_*` directories
whose name-encoded bin edges all belong to the current selected time
bins — and the lightcurve routine is restarted with the original config,
the same `pfx`, `num_sections`, `sec`, and the already-computed no-data
periods. -/
theorem recovery_deletes_latest_selected
    (origCfg : FermipyConfig) (pfx : String) (ns : Option ℕ) (sec : ℕ)
    (periods : List (ℚ × ℚ)) (ts : List ℚ) (dirs : List DirEntry)
    (d : DirEntry) (hd : dirToDelete ts dirs = some d) :
    recoveryBranch origCfg pfx ns sec periods ts dirs
      = .deleteAndRestart d ⟨origCfg, pfx, ns, sec, periods⟩
    ∧ d ∈ dirs
    ∧ dirSelected ts (binEdgesOf d.basename) = some true
    ∧ ∀ d2 ∈ dirs, dirSelected ts (binEdgesOf d2.basename) = some true →
        d2.mtime ≤ d.mtime := by
  rcases hsel : selectedBinDirs ts dirs with _ | sel
  · rw [dirToDelete, hsel] at hd; exact absurd hd (by simp)
  · rw [dirToDelete, hsel] at hd
    obtain ⟨hmem, hmax⟩ := maxByMtime_spec sel d hd
    have hiff := selectedBinDirs_spec dirs sel ts hsel
    obtain ⟨hmd, hsd⟩ := (hiff d).mp hmem
    refine ⟨?_, hmd, hsd, fun d2 h2 hs2 => hmax d2 ((hiff d2).mpr ⟨h2, hs2⟩)⟩
    rw [recoveryBranch, dirToDelete, hsel, hd]

/-- C4, witness: a single selected directory (no name-encoded edges, so it
is vacuously selected) is the one deleted, and the restart call carries the
same arguments. -/
theorem recovery_deletes_latest_selected_witness :
    recoveryBranch ⟨0, 1, "t", "o", none, none, none⟩ "crab" (some 2) 0 []
        [] [⟨"lightcurve", 7⟩]
      = .deleteAndRestart ⟨"lightcurve", 7⟩
          ⟨⟨0, 1, "t", "o", none, none, none⟩, "crab", some 2, 0, []⟩
    ∧ (⟨"lightcurve", 7⟩ : DirEntry) ∈ [(⟨"lightcurve", 7⟩ : DirEntry)]
    ∧ dirSelected [] (binEdgesOf "lightcurve") = some true
    ∧ ∀ d2 ∈ [(⟨"lightcurve", 7⟩ : DirEntry)],
        dirSelected [] (binEdgesOf d2.basename) = some true →
        d2.mtime ≤ (7 : ℤ) :=
  recovery_deletes_latest_selected ⟨0, 1, "t", "o", none, none, none⟩ "crab"
    (some 2) 0 [] [] [⟨"lightcurve", 7⟩] ⟨"lightcurve", 7⟩ (by decide)

theorem runLightcurveChain_some (noDataOf : FermipyConfig → List (ℚ × ℚ))
    (cfg : FermipyConfig) (ns : Option ℕ) (sec : ℕ) (p : List (ℚ × ℚ)) :
    ∀ crashes, runLightcurveChain noDataOf cfg ns sec (some p) crashes
      = List.replicate (crashes + 1)
          (false, (run_lightcurve_time_bins cfg ns sec p).map (setTimeBins cfg)) := by
  intro crashes
  induction crashes with
  | zero => simp [runLightcurveChain, lightcurveRound, List.replicate]
  | succ c ih =>
    simp only [runLightcurveChain, Option.getD_some] at ih ⊢
    rw [ih]
    simp [lightcurveRound, List.replicate_succ]

/-- C9: across an entire chain of crash-recovery restarts the no-data
periods are computed exactly once (in the first round), and every round —
original and restarts alike — hands `GTAnalysis` the same config: the
entry config with only `lightcurve.time_bins` replaced by the bins computed
from that original config.  The `time_bins` mutation of one round never
leaks into a restarted round, because each restart receives the deep-copied
original config and the already-computed periods. -/
theorem restart_chain_spec (noDataOf : FermipyConfig → List (ℚ × ℚ))
    (cfg : FermipyConfig) (ns : Option ℕ) (sec : ℕ) (crashes : ℕ) :
    (runLightcurveChain noDataOf cfg ns sec none crashes).countP
        (fun r => r.1) = 1
    ∧ (runLightcurveChain noDataOf cfg ns sec none crashes).head?.map
        Prod.fst = some true
    ∧ ∀ r ∈ runLightcurveChain noDataOf cfg ns sec none crashes,
        r.2 = (run_lightcurve_time_bins cfg ns sec (noDataOf cfg)).map
          (setTimeBins cfg) := by
  cases crashes with
  | zero =>
    refine ⟨?_, ?_, ?_⟩ <;>
      simp [runLightcurveChain, lightcurveRound]
  | succ c =>
    have hs := runLightcurveChain_some noDataOf cfg ns sec (noDataOf cfg) c
    have ht : runLightcurveChain noDataOf cfg ns sec none (c + 1)
        = (true, (run_lightcurve_time_bins cfg ns sec (noDataOf cfg)).map
            (setTimeBins cfg))
          :: List.replicate (c + 1)
            (false, (run_lightcurve_time_bins cfg ns sec (noDataOf cfg)).map
              (setTimeBins cfg)) := by
      simp only [runLightcurveChain, Option.getD_none, Option.isNone_none]
      rw [hs]
      simp [lightcurveRound]
    rw [ht]
    refine ⟨?_, ?_, ?_⟩
    · simp [List.countP_cons]
    · simp
    · intro r hr
      rcases List.mem_cons.mp hr with h1 | h1
      · rw [h1]
      · rw [List.eq_of_mem_replicate h1]

/-- C9, witness: a one-crash chain at a concrete config. -/
theorem restart_chain_spec_witness :
    (runLightcurveChain (fun _ => []) ⟨0, 10, "t", "o", some [0, 10], none, none⟩
        none 0 none 1).countP (fun r => r.1) = 1 :=
  (restart_chain_spec (fun _ => []) ⟨0, 10, "t", "o", some [0, 10], none, none⟩
    none 0 1).1

theorem parseArgv_config_mem_aux :
    ∀ (n : ℕ) (argv : List String), argv.length ≤ n →
      ∀ (cfg? p : Option String) (l : Bool) (s : Option ℤ) (args : CliArgs),
        parseArgv argv cfg? p l s = some args →
        args.config ∈ argv ∨ cfg? = some args.config := by
  intro n
  induction n with
  | zero =>
    intro argv hlen cfg? p l s args h
    have : argv = [] := List.length_eq_zero.mp (Nat.le_zero.mp hlen)
    subst this
    cases cfg? with
    | none => simp [parseArgv] at h
    | some c =>
      simp only [parseArgv, Option.some_inj] at h
      right
      rw [← h]
  | succ n ih =>
    intro argv hlen cfg? p l s args h
    match argv with
    | [] =>
      cases cfg? with
      | none => simp [parseArgv] at h
      | some c =>
        simp only [parseArgv, Option.some_inj] at h
        right
        rw [← h]
    | [t] =>
      simp only [parseArgv] at h
      by_cases h1 : t = "-p" ∨ t = "--prefix"
      · rw [if_pos h1] at h; simp at h
      · rw [if_neg h1] at h
        by_cases h2 : t = "-l" ∨ t = "--lightcurve"
        · rw [if_pos h2] at h
          cases cfg? with
          | none => simp at h
          | some c =>
            simp only [Option.some_inj] at h
            right
            rw [← h]
        · rw [if_neg h2] at h
          by_cases h3 : t = "-s" ∨ t = "--section"
          · rw [if_pos h3] at h; simp at h
          · rw [if_neg h3] at h
            by_cases h4 : t.toList.head? = some '-'
            · rw [if_pos h4] at h; simp at h
            · rw [if_neg h4] at h
              cases cfg? with
              | none =>
                simp only [Option.isSome_none, Bool.false_eq_true, if_false,
                  Option.some_inj] at h
                left
                rw [← h]
                simp
              | some c => simp at h
    | t :: v :: rest2 =>
      have hr : rest2.length ≤ n := by simp at hlen; omega
      have hvr : (v :: rest2).length ≤ n := by simp at hlen ⊢; omega
      simp only [parseArgv] at h
      by_cases h1 : t = "-p" ∨ t = "--prefix"
      · rw [if_pos h1] at h
        rcases ih rest2 hr cfg? (some v) l s args h with hm | hm
        · exact Or.inl
            (List.mem_cons.mpr (Or.inr (List.mem_cons.mpr (Or.inr hm))))
        · exact Or.inr hm
      · rw [if_neg h1] at h
        by_cases h2 : t = "-l" ∨ t = "--lightcurve"
        · rw [if_pos h2] at h
          rcases ih (v :: rest2) hvr cfg? p true s args h with hm | hm
          · exact Or.inl (List.mem_cons.mpr (Or.inr hm))
          · exact Or.inr hm
        · rw [if_neg h2] at h
          by_cases h3 : t = "-s" ∨ t = "--section"
          · rw [if_pos h3] at h
            cases hv : parseInt? v.toList with
            | none => rw [hv] at h; simp at h
            | some k =>
              rw [hv] at h
              simp only [Option.some_bind] at h
              rcases ih rest2 hr cfg? p l (some k) args h with hm | hm
              · exact Or.inl
                  (List.mem_cons.mpr (Or.inr (List.mem_cons.mpr (Or.inr hm))))
              · exact Or.inr hm
          · rw [if_neg h3] at h
            by_cases h4 : t.toList.head? = some '-'
            · rw [if_pos h4] at h; simp at h
            · rw [if_neg h4] at h
              cases cfg? with
              | none =>
                simp only [Option.isSome_none, Bool.false_eq_true, if_false] at h
                rcases ih (v :: rest2) hvr (some t) p l s args h with hm | hm
                · exact Or.inl (List.mem_cons.mpr (Or.inr hm))
                · simp only [Option.some_inj] at hm
                  exact Or.inl (List.mem_cons.mpr (Or.inl hm.symm))
              | some c => simp at h

theorem parseArgv_config_mem (argv : List String) (cfg? p : Option String)
    (l : Bool) (s : Option ℤ) (args : CliArgs)
    (h : parseArgv argv cfg? p l s = some args) :
    args.config ∈ argv ∨ cfg? = some args.config :=
  parseArgv_config_mem_aux argv.length argv le_rfl cfg? p l s args h

/-- C7: the pipeline-config path is a required positional argument (an
empty command line is rejected, and an accepted `config` value always comes
from the command line itself); the prefix used is the `--prefix` argument
when truthy and otherwise the config's `prefix` value; and in lightcurve
mode the section used is the `--section` argument when it is not `None`
and otherwise the config's `section` value. -/
theorem cli_overrides_spec :
    (∀ (argv : List String) (args : CliArgs),
      parseRunAnalysisArgv argv = some args → args.config ∈ argv)
    ∧ parseRunAnalysisArgv [] = none
    ∧ (∀ (args : CliArgs) (pc : PipelineConfig) (p : String) (ns : Option ℕ)
        (s : ℤ), mainDispatch args pc = some (.lightcurveMode p ns s) →
        (truthyStr args.pfx = true → args.pfx = some p)
        ∧ (truthyStr args.pfx = false → pc.pfx = some p)
        ∧ (∀ v, args.sec = some v → s = v)
        ∧ (args.sec = none → pc.sec = some s))
    ∧ (∀ (args : CliArgs) (pc : PipelineConfig) (p : String),
        mainDispatch args pc = some (.analysisMode p) →
        (truthyStr args.pfx = true → args.pfx = some p)
        ∧ (truthyStr args.pfx = false → pc.pfx = some p)) := by
  refine ⟨?_, ?_, ?_, ?_⟩
  · intro argv args h
    rcases parseArgv_config_mem argv none none false none args h with hm | hm
    · exact hm
    · exact absurd hm (by simp)
  · rfl
  · intro args pc p ns s h
    unfold mainDispatch at h
    split at h
    · simp at h
    · rename_i pv heq
      by_cases hl : args.lightcurve = true
      · rw [if_pos hl] at h
        split at h
        · simp at h
        · rename_i ns2 hns
          split at h
          · simp at h
          · rename_i s2 hs2
            simp only [Option.some_inj, Dispatch.lightcurveMode.injEq] at h
            obtain ⟨hp, hn2, hs⟩ := h
            subst hp; subst hs
            refine ⟨fun ht => ?_, fun ht => ?_, fun v hv => ?_, fun hv => ?_⟩
            · rw [if_pos ht] at heq; exact heq
            · rw [if_neg (by simp [ht])] at heq; exact heq
            · rw [hv] at hs2
              simpa using hs2.symm
            · rw [hv] at hs2; exact hs2
      · rw [if_neg hl] at h
        simp at h
  · intro args pc p h
    unfold mainDispatch at h
    split at h
    · simp at h
    · rename_i pv heq
      by_cases hl : args.lightcurve = true
      · rw [if_pos hl] at h
        split at h
        · simp at h
        · split at h
          · simp at h
          · simp at h
      · rw [if_neg hl] at h
        simp only [Option.some_inj, Dispatch.analysisMode.injEq] at h
        subst h
        refine ⟨fun ht => ?_, fun ht => ?_⟩
        · rw [if_pos ht] at heq; exact heq
        · rw [if_neg (by simp [ht])] at heq; exact heq

/-- C7, witness: `run_analysis.py cfg.yml -l -s 4` with a config carrying
prefix `crab` and section `0` dispatches with the overridden section 4. -/
theorem cli_overrides_spec_witness :
    (⟨"cfg.yml", none, true, some 4⟩ : CliArgs).config ∈
      (["cfg.yml", "-l", "-s", "4"] : List String) :=
  cli_overrides_spec.1 ["cfg.yml", "-l", "-s", "4"]
    ⟨"cfg.yml", none, true, some 4⟩ (by decide)

theorem sum_ite_range (n q r : ℕ) :
    ((List.range n).map (fun i => if i < r then q + 1 else q)).sum
      = n * q + min r n := by
  induction n with
  | zero => simp
  | succ n ih =>
    rw [List.range_succ, List.map_append, List.sum_append]
    rw [ih]
    by_cases hc : n < r
    · simp only [List.map_cons, List.map_nil, List.sum_cons, List.sum_nil,
        if_pos hc]
      rw [Nat.succ_mul]
      omega
    · simp only [List.map_cons, List.map_nil, List.sum_cons, List.sum_nil,
        if_neg hc]
      rw [Nat.succ_mul]
      omega

theorem splitSizes_sum (l n : ℕ) (hn : 1 ≤ n) : (splitSizes l n).sum = l := by
  rw [splitSizes, sum_ite_range]
  rw [min_eq_left (le_of_lt (Nat.mod_lt l hn))]
  exact Nat.div_add_mod l n

theorem chunksOf_flatten :
    ∀ (ss : List ℕ) (xs : List ℚ), (chunksOf ss xs).flatten = xs.take ss.sum := by
  intro ss
  induction ss with
  | nil => intro xs; simp [chunksOf]
  | cons s ss ih =>
    intro xs
    simp only [chunksOf, List.flatten_cons, List.sum_cons, ih]
    rw [List.take_add]

/-- `np.array_split` into `n ≥ 1` sections loses no element: the sections
concatenate back to the original array. -/
theorem array_split_flatten (xs : List ℚ) (n : ℕ) (hn : 1 ≤ n) :
    (array_split xs n).flatten = xs := by
  rw [array_split, chunksOf_flatten, splitSizes_sum xs.length n hn,
    List.take_length]

/-- C2: for a non-final section `i` whose successor split is non-empty, the
selected time edges (before gap removal) are exactly split `i` extended by
the first edge of split `i + 1` — consecutive sections share that one
boundary edge — and the splits concatenate back to the full edge sequence,
so sectioning loses no bin. -/
theorem section_continuity (times : List ℚ) (n i : ℕ) (hn : 1 ≤ n)
    (hi : i < n - 1)
    (hne : (array_split times n).getD (i + 1) [] ≠ []) :
    selectedTimesOf times (some n) i
      = (array_split times n).getD i []
        ++ [((array_split times n).getD (i + 1) []).headD 0]
    ∧ (array_split times n).flatten = times := by
  refine ⟨?_, array_split_flatten times n hn⟩
  obtain ⟨x, xs, hcons⟩ := List.exists_cons_of_ne_nil hne
  simp only [selectedTimesOf, if_pos hi, hcons, List.head?_cons, List.headD_cons]

/-- C2, witness: `[0, 1, 2, 3, 4]` split into two sections. -/
theorem section_continuity_witness :
    selectedTimesOf [0, 1, 2, 3, 4] (some 2) 0
      = (array_split [0, 1, 2, 3, 4] 2).getD 0 []
        ++ [((array_split [0, 1, 2, 3, 4] 2).getD 1 []).headD 0]
    ∧ (array_split [0, 1, 2, 3, 4] 2).flatten = [0, 1, 2, 3, 4] :=
  section_continuity [0, 1, 2, 3, 4] 2 0 (by decide) (by decide) (by
    simp [array_split, splitSizes, chunksOf, List.range_succ])

theorem mem_removeGapPeriod (sel : List ℚ) (p : ℚ × ℚ) (t : ℚ)
    (ht : t ∈ removeGapPeriod sel p) :
    t ∈ sel ∧ ¬(p.1 ≤ t ∧ t ≤ p.2) := by
  unfold removeGapPeriod at ht
  by_cases he :
      (sel.filter (fun t => decide (p.1 ≤ t) && decide (t ≤ p.2))).isEmpty = true
  · rw [if_pos he] at ht
    refine ⟨ht, fun hin => ?_⟩
    have hmem : t ∈ sel.filter (fun t => decide (p.1 ≤ t) && decide (t ≤ p.2)) :=
      List.mem_filter.mpr ⟨ht, by simp [hin.1, hin.2]⟩
    rw [List.isEmpty_iff] at he
    rw [he] at hmem
    exact absurd hmem (by simp)
  · rw [if_neg he] at ht
    unfold setdiff1d at ht
    obtain ⟨hsel, hni⟩ := List.mem_filter.mp ht
    refine ⟨hsel, fun hin => ?_⟩
    have hmem : t ∈ sel.filter (fun t => decide (p.1 ≤ t) && decide (t ≤ p.2)) :=
      List.mem_filter.mpr ⟨hsel, by simp [hin.1, hin.2]⟩
    simp only [Bool.not_eq_eq_eq_not, Bool.not_true, decide_eq_false_iff_not] at hni
    exact hni hmem

theorem mem_removeGapBins :
    ∀ (periods : List (ℚ × ℚ)) (sel : List ℚ) (t : ℚ),
      t ∈ removeGapBins sel periods →
      t ∈ sel ∧ ∀ p ∈ periods, ¬(p.1 ≤ t ∧ t ≤ p.2) := by
  intro periods
  induction periods with
  | nil => intro sel t ht; exact ⟨ht, by simp⟩
  | cons p ps ih =>
    intro sel t ht
    rw [removeGapBins, List.foldl_cons] at ht
    obtain ⟨h1, h2⟩ := ih (removeGapPeriod sel p) t ht
    obtain ⟨hsel, hp⟩ := mem_removeGapPeriod sel p t h1
    refine ⟨hsel, fun q hq => ?_⟩
    rcases List.mem_cons.mp hq with hq1 | hq1
    · exact hq1 ▸ hp
    · exact h2 q hq1

/-- C1, counterexample: with edges `[0, 10]` and the no-data period
`(2, 3)`, the single bin `(0, 10)` overlaps the period, yet no edge lies
inside the period, so the gap-removal loop keeps both edges and the bin
survives among the final time bins — refuting "every time bin that overlaps
that period is removed". -/
theorem gap_bin_overlap_counterexample :
    run_lightcurve_time_bins ⟨0, 10, "t", "o", some [0, 10], none, none⟩
        none 0 [(2, 3)] = .ok [0, 10]
    ∧ ((0 : ℚ), (10 : ℚ)) ∈ ([0, 10] : List ℚ).zip ([0, 10] : List ℚ).tail
    ∧ max (0 : ℚ) 2 ≤ min (10 : ℚ) 3 := by
  refine ⟨?_, by simp, by norm_num⟩
  have h1 : get_times ⟨0, 10, "t", "o", some [0, 10], none, none⟩
      = .ok [0, 10] := by
    norm_num [get_times, truthyList]
  have h3 : removeGapBins [0, 10] [(2, 3)] = [0, 10] := by
    norm_num [removeGapBins, removeGapPeriod, setdiff1d, List.filter]
  rw [run_lightcurve_time_bins, h1]
  show Except.ok (removeGapBins (selectedTimesOf [0, 10] none 0) [(2, 3)])
    = Except.ok [0, 10]
  rw [show selectedTimesOf [0, 10] none 0 = [0, 10] from rfl, h3]

/-- C1 (amended): for every no-data period, every selected time-bin edge
lying within `[start, stop]` is removed: no edge of the final `time_bins`,
and in particular neither edge of any final bin, lies inside any no-data
period.  (A bin that overlaps a gap while both its edges lie outside the
gap — e.g. a bin strictly containing the whole gap — is kept.) -/
theorem no_final_edge_in_gap (cfg : FermipyConfig) (ns : Option ℕ) (sec : ℕ)
    (periods : List (ℚ × ℚ)) (tb : List ℚ)
    (h : run_lightcurve_time_bins cfg ns sec periods = .ok tb) :
    (∀ t ∈ tb, ∀ p ∈ periods, ¬(p.1 ≤ t ∧ t ≤ p.2))
    ∧ ∀ pr ∈ tb.zip tb.tail, ∀ p ∈ periods,
        ¬(p.1 ≤ pr.1 ∧ pr.1 ≤ p.2) ∧ ¬(p.1 ≤ pr.2 ∧ pr.2 ≤ p.2) := by
  have hmem : ∀ t ∈ tb, ∀ p ∈ periods, ¬(p.1 ≤ t ∧ t ≤ p.2) := by
    cases hg : get_times cfg with
    | error e =>
      rw [run_lightcurve_time_bins, hg] at h
      exact absurd h (by simp [Except.map])
    | ok times =>
      rw [run_lightcurve_time_bins, hg] at h
      simp only [Except.map, Except.ok.injEq] at h
      intro t ht
      rw [← h] at ht
      exact (mem_removeGapBins periods (selectedTimesOf times ns sec) t ht).2
  refine ⟨hmem, fun pr hpr p hp => ?_⟩
  obtain ⟨h1, h2⟩ := List.of_mem_zip hpr
  exact ⟨hmem pr.1 h1 p hp, hmem pr.2 (List.mem_of_mem_tail h2) p hp⟩

/-- C1 (amended), witness: edges `[0, 1, 2, 3, 10]` against the gap
`(1, 2)` keep only edges outside the gap; in particular the surviving edge
`3` does not lie in the gap. -/
theorem no_final_edge_in_gap_witness :
    ¬((1 : ℚ) ≤ 3 ∧ (3 : ℚ) ≤ 2) :=
  (no_final_edge_in_gap ⟨0, 10, "t", "o", some [0, 1, 2, 3, 10], none, none⟩
    none 0 [(1, 2)] [0, 3, 10]
    (by
      have h1 : get_times ⟨0, 10, "t", "o", some [0, 1, 2, 3, 10], none, none⟩
          = .ok [0, 1, 2, 3, 10] := by
        norm_num [get_times, truthyList]
      have h3 : removeGapBins [0, 1, 2, 3, 10] [(1, 2)] = [0, 3, 10] := by
        norm_num [removeGapBins, removeGapPeriod, setdiff1d, List.filter]
      rw [run_lightcurve_time_bins, h1]
      show Except.ok
          (removeGapBins (selectedTimesOf [0, 1, 2, 3, 10] none 0) [(1, 2)])
        = Except.ok [0, 3, 10]
      rw [show selectedTimesOf [0, 1, 2, 3, 10] none 0 = [0, 1, 2, 3, 10]
          from rfl, h3])).1
    3 (by norm_num) (1, 2) (by norm_num)

/-- `np.linspace a b (n + 1)` with `n ≥ 1` contains its endpoint `b`. -/
theorem tmax_mem_linspace (a b : ℚ) (n : ℕ) (hn : n ≠ 0) :
    b ∈ linspace a b (n + 1) := by
  rw [linspace]
  refine List.mem_map.mpr ⟨n, List.mem_range.mpr (Nat.lt_succ_self n), ?_⟩
  have hq : ((n : ℚ)) ≠ 0 := Nat.cast_ne_zero.mpr hn
  rw [Nat.add_sub_cancel]
  field_simp

/-- `np.arange a b s` never contains its stop value `b`: with a positive
step every sample is below `b`, with a negative step every sample is above
`b`, and a zero step produces nothing here. -/
theorem tmax_not_mem_arange (a b s : ℚ) : b ∉ arange a b s := by
  rw [arange]
  by_cases hs : s = 0
  · simp [hs]
  · rw [if_neg hs]
    intro hmem
    obtain ⟨i, hi, heq⟩ := List.mem_map.mp hmem
    rw [List.mem_range] at hi
    have hceil : (i : ℤ) < ⌈(b - a) / s⌉ := Int.lt_toNat.mp hi
    have hlt : (i : ℚ) < (b - a) / s := by
      have h1 : ((i : ℤ) : ℚ) ≤ ((⌈(b - a) / s⌉ : ℤ) : ℚ) - 1 := by
        have : (i : ℤ) ≤ ⌈(b - a) / s⌉ - 1 := by omega
        push_cast
        exact_mod_cast this
      have h2 : ((⌈(b - a) / s⌉ : ℤ) : ℚ) < (b - a) / s + 1 :=
        Int.ceil_lt_add_one ((b - a) / s)
      have h3 : ((i : ℤ) : ℚ) = (i : ℚ) := by push_cast; rfl
      linarith [h1, h2]
    rcases lt_or_gt_of_ne hs with hneg | hpos
    · have hgt : b - a < (i : ℚ) * s := (lt_div_iff_of_neg hneg).mp hlt
      have : a + (i : ℚ) * s ≠ b := by intro hx; linarith
      exact this heq
    · have hless : (i : ℚ) * s < b - a := (lt_div_iff₀ hpos).mp hlt
      have : a + (i : ℚ) * s ≠ b := by intro hx; linarith
      exact this heq

/-- C8: `get_times` chooses the bin edges with fixed precedence — the
explicit `time_bins` when truthy, else `np.linspace(tmin, tmax, nbins + 1)`
(which includes `tmax`) when `nbins` is truthy, else
`np.arange(tmin, tmax, binsz)` (which excludes `tmax`, dropping any
observation tail shorter than `binsz`) when `binsz` is truthy — and raises
`ValueError` exactly when none of the three keys is truthy. -/
theorem get_times_precedence_spec (cfg : FermipyConfig) :
    (truthyList cfg.time_bins = true →
      get_times cfg = .ok (cfg.time_bins.getD []))
    ∧ (truthyList cfg.time_bins = false → truthyNat cfg.nbins = true →
      get_times cfg = .ok (linspace cfg.tmin cfg.tmax (cfg.nbins.getD 0 + 1))
      ∧ cfg.tmax ∈ linspace cfg.tmin cfg.tmax (cfg.nbins.getD 0 + 1))
    ∧ (truthyList cfg.time_bins = false → truthyNat cfg.nbins = false →
        truthyRat cfg.binsz = true →
      get_times cfg = .ok (arange cfg.tmin cfg.tmax (cfg.binsz.getD 0))
      ∧ cfg.tmax ∉ arange cfg.tmin cfg.tmax (cfg.binsz.getD 0))
    ∧ ((∃ e, get_times cfg = .error e) ↔
      (truthyList cfg.time_bins = false ∧ truthyNat cfg.nbins = false ∧
        truthyRat cfg.binsz = false)) := by
  refine ⟨fun h1 => ?_, fun h1 h2 => ?_, fun h1 h2 h3 => ?_, ?_, ?_⟩
  · rw [get_times, if_pos h1]
  · rw [get_times, if_neg (by simp [h1]), if_pos h2]
    refine ⟨rfl, ?_⟩
    have hnb : cfg.nbins.getD 0 ≠ 0 := by
      cases hnn : cfg.nbins with
      | none => rw [hnn] at h2; simp [truthyNat] at h2
      | some m =>
        rw [hnn] at h2
        simpa [truthyNat] using h2
    exact tmax_mem_linspace cfg.tmin cfg.tmax (cfg.nbins.getD 0) hnb
  · rw [get_times, if_neg (by simp [h1]), if_neg (by simp [h2]), if_pos h3]
    exact ⟨rfl, tmax_not_mem_arange cfg.tmin cfg.tmax (cfg.binsz.getD 0)⟩
  · rintro ⟨e, he⟩
    by_cases h1 : truthyList cfg.time_bins = true
    · rw [get_times, if_pos h1] at he; exact absurd he (by simp)
    · by_cases h2 : truthyNat cfg.nbins = true
      · rw [get_times, if_neg h1, if_pos h2] at he; exact absurd he (by simp)
      · by_cases h3 : truthyRat cfg.binsz = true
        · rw [get_times, if_neg h1, if_neg h2, if_pos h3] at he
          exact absurd he (by simp)
        · exact ⟨by simpa using h1, by simpa using h2, by simpa using h3⟩
  · rintro ⟨h1, h2, h3⟩
    refine ⟨"None of time_bins, nbins, or binsz specified", ?_⟩
    rw [get_times, if_neg (by simp [h1]), if_neg (by simp [h2]),
      if_neg (by simp [h3])]

/-- C8, witness: the three truthy branches at concrete configs, and the
`ValueError` case when all three keys are absent. -/
theorem get_times_precedence_spec_witness :
    get_times ⟨0, 10, "t", "o", some [5], none, none⟩ = .ok ((some [5]).getD [])
    ∧ get_times ⟨0, 10, "t", "o", none, some 2, none⟩
        = .ok (linspace 0 10 ((some 2).getD 0 + 1))
    ∧ get_times ⟨0, 10, "t", "o", none, none, some 4⟩
        = .ok (arange 0 10 ((some 4).getD 0))
    ∧ (10 : ℚ) ∉ arange 0 10 ((some (4 : ℚ)).getD 0)
    ∧ (∃ e, get_times ⟨0, 10, "t", "o", none, none, none⟩ = .error e) :=
  ⟨(get_times_precedence_spec ⟨0, 10, "t", "o", some [5], none, none⟩).1
      (by decide),
   ((get_times_precedence_spec ⟨0, 10, "t", "o", none, some 2, none⟩).2.1
      (by decide) (by decide)).1,
   ((get_times_precedence_spec ⟨0, 10, "t", "o", none, none, some 4⟩).2.2.1
      (by decide) (by decide) (by simp [truthyRat])).1,
   ((get_times_precedence_spec ⟨0, 10, "t", "o", none, none, some 4⟩).2.2.1
      (by decide) (by decide) (by simp [truthyRat])).2,
   (get_times_precedence_spec ⟨0, 10, "t", "o", none, none, none⟩).2.2.2.mpr
      ⟨by decide, by decide, by decide⟩⟩

/-! ## Correctness of `combine_lightcurve_results` (C6) -/

/-- The array contributed by section `i` for key `k`: its file's array when
the file exists and binds `k` to an array, nothing otherwise. -/
def arrContrib (files : ℕ → Option (List (String × LCVal))) (k : String)
    (i : ℕ) : List ℚ :=
  match files i with
  | none => []
  | some f =>
    match lookupKey k f with
    | some (.varr xs) => xs
    | _ => []

/-- The value section `i` contributes to a non-array key `k`'s list. -/
def listContrib (files : ℕ → Option (List (String × LCVal))) (k : String)
    (i : ℕ) : List LCVal :=
  match files i with
  | none => []
  | some f =>
    match lookupKey k f with
    | some v => [v]
    | none => []

/-- A well-formed per-section result file: it has a `tmin` entry, every
value outside the non-array keys is an array, and its keys are distinct
(it is a dictionary). -/
def wfFile (f : List (String × LCVal)) : Prop :=
  (lookupKey "tmin" f).isSome = true
  ∧ (∀ kv ∈ f, kv.1 ∉ non_array_keys → ∃ xs, kv.2 = LCVal.varr xs)
  ∧ (f.map Prod.fst).Nodup

/-- The invariant of the combined dictionary: non-array keys hold lists,
array keys hold arrays. -/
def accWF (acc : List (String × CombVal)) : Prop :=
  ∀ kv ∈ acc,
    (kv.1 ∈ non_array_keys → ∃ vs, kv.2 = CombVal.clist vs)
    ∧ (kv.1 ∉ non_array_keys → ∃ xs, kv.2 = CombVal.carr xs)

theorem lookupKey_cons {β : Type} (k : String) (kv : String × β)
    (rest : List (String × β)) :
    lookupKey k (kv :: rest) = if kv.1 = k then some kv.2 else lookupKey k rest :=
  rfl

theorem lookupKey_mem {β : Type} (k : String) :
    ∀ (l : List (String × β)) (v : β),
      lookupKey k l = some v → (k, v) ∈ l := by
  intro l
  induction l with
  | nil => intro v h; simp [lookupKey] at h
  | cons kv rest ih =>
    intro v h
    rw [lookupKey_cons] at h
    by_cases hk : kv.1 = k
    · rw [if_pos hk] at h
      simp only [Option.some_inj] at h
      have hkv : kv = (k, v) := by
        obtain ⟨a, b⟩ := kv
        simp only at hk h
        rw [hk, h]
      rw [← hkv]
      exact List.mem_cons_self kv rest
    · rw [if_neg hk] at h
      exact List.mem_cons.mpr (Or.inr (ih v h))

theorem lookupKey_append {β : Type} (k k2 : String) (v : β) :
    ∀ (acc : List (String × β)),
      lookupKey k2 (acc ++ [(k, v)]) =
        ((lookupKey k2 acc).orElse
          (fun _ => if k = k2 then some v else none)) := by
  intro acc
  induction acc with
  | nil => simp [lookupKey, Option.orElse]
  | cons kv rest ih =>
    rw [List.cons_append, lookupKey_cons, lookupKey_cons]
    by_cases hk : kv.1 = k2
    · rw [if_pos hk, if_pos hk]
      simp [Option.orElse]
    · rw [if_neg hk, if_neg hk, ih]

theorem updateVal_cons (kv : String × CombVal) (acc : List (String × CombVal))
    (k : String) (v : CombVal) :
    updateVal (kv :: acc) k v
      = (if kv.1 = k then (k, v) else kv) :: updateVal acc k v :=
  rfl

theorem lookupKey_updateVal_self (k : String) (v : CombVal) :
    ∀ (acc : List (String × CombVal)) (w : CombVal),
      lookupKey k acc = some w →
      lookupKey k (updateVal acc k v) = some v := by
  intro acc
  induction acc with
  | nil => intro w h; simp [lookupKey] at h
  | cons kv rest ih =>
    intro w h
    rw [lookupKey_cons] at h
    rw [updateVal_cons]
    by_cases hk : kv.1 = k
    · rw [if_pos hk, lookupKey_cons]
      simp
    · rw [if_neg hk] at h
      rw [if_neg hk, lookupKey_cons, if_neg hk]
      exact ih w h

theorem lookupKey_updateVal_other (k k2 : String) (v : CombVal)
    (hne : k2 ≠ k) :
    ∀ (acc : List (String × CombVal)),
      lookupKey k2 (updateVal acc k v) = lookupKey k2 acc := by
  intro acc
  induction acc with
  | nil => simp [updateVal, lookupKey]
  | cons kv rest ih =>
    rw [updateVal_cons]
    by_cases hk : kv.1 = k
    · rw [if_pos hk, lookupKey_cons,
        if_neg (show ¬((k, v) : String × CombVal).1 = k2 from
          fun hx => hne hx.symm),
        ih, lookupKey_cons,
        if_neg (show ¬kv.1 = k2 by rw [hk]; exact fun hx => hne hx.symm)]
    · rw [if_neg hk, lookupKey_cons, lookupKey_cons, ih]

theorem accWF_append (acc : List (String × CombVal)) (k : String)
    (v : CombVal) (hacc : accWF acc)
    (hv : (k ∈ non_array_keys → ∃ vs, v = CombVal.clist vs)
      ∧ (k ∉ non_array_keys → ∃ xs, v = CombVal.carr xs)) :
    accWF (acc ++ [(k, v)]) := by
  intro kv hkv
  rcases List.mem_append.mp hkv with hm | hm
  · exact hacc kv hm
  · simp only [List.mem_singleton] at hm
    rw [hm]
    exact hv

theorem accWF_updateVal (acc : List (String × CombVal)) (k : String)
    (v : CombVal) (hacc : accWF acc)
    (hv : (k ∈ non_array_keys → ∃ vs, v = CombVal.clist vs)
      ∧ (k ∉ non_array_keys → ∃ xs, v = CombVal.carr xs)) :
    accWF (updateVal acc k v) := by
  intro kv hkv
  obtain ⟨y, hy, hxy⟩ := List.mem_map.mp hkv
  by_cases hk : y.1 = k
  · rw [if_pos hk] at hxy
    rw [← hxy]
    exact hv
  · rw [if_neg hk] at hxy
    rw [← hxy]
    exact hacc y hy

theorem processPair_spec (acc : List (String × CombVal)) (kv : String × LCVal)
    (hacc : accWF acc)
    (hv : kv.1 ∉ non_array_keys → ∃ xs, kv.2 = LCVal.varr xs) :
    ∃ acc2, processPair acc kv = some acc2 ∧ accWF acc2
      ∧ (∀ k2, k2 ≠ kv.1 → lookupKey k2 acc2 = lookupKey k2 acc)
      ∧ (kv.1 ∈ non_array_keys →
          (lookupKey kv.1 acc = none →
            lookupKey kv.1 acc2 = some (CombVal.clist [kv.2]))
          ∧ (∀ vs, lookupKey kv.1 acc = some (CombVal.clist vs) →
            lookupKey kv.1 acc2 = some (CombVal.clist (vs ++ [kv.2]))))
      ∧ (kv.1 ∉ non_array_keys → ∀ xs, kv.2 = LCVal.varr xs →
          (lookupKey kv.1 acc = none →
            lookupKey kv.1 acc2 = some (CombVal.carr xs))
          ∧ (∀ ys, lookupKey kv.1 acc = some (CombVal.carr ys) →
            lookupKey kv.1 acc2 = some (CombVal.carr (ys ++ xs)))) := by
  by_cases hna : kv.1 ∈ non_array_keys
  · cases hl : lookupKey kv.1 acc with
    | none =>
      refine ⟨acc ++ [(kv.1, .clist [kv.2])], ?_, ?_, ?_, ?_, ?_⟩
      · simp only [processPair, if_pos hna, hl]
      · exact accWF_append acc kv.1 _ hacc
          ⟨fun _ => ⟨[kv.2], rfl⟩, fun hn => absurd hna hn⟩
      · intro k2 hk2
        rw [lookupKey_append, if_neg (fun hx => hk2 hx.symm)]
        cases lookupKey k2 acc <;> simp [Option.orElse]
      · intro _
        refine ⟨fun _ => ?_, fun vs hvs => ?_⟩
        · rw [lookupKey_append, hl]
          simp [Option.orElse]
        · exact absurd hvs (by simp)
      · intro hn
        exact absurd hna hn
    | some w =>
      obtain ⟨vs, hw⟩ :=
        (hacc (kv.1, w) (lookupKey_mem kv.1 acc w hl)).1 hna
      simp only at hw
      subst hw
      refine ⟨updateVal acc kv.1 (.clist (vs ++ [kv.2])), ?_, ?_, ?_, ?_, ?_⟩
      · simp only [processPair, if_pos hna, hl]
      · exact accWF_updateVal acc kv.1 _ hacc
          ⟨fun _ => ⟨vs ++ [kv.2], rfl⟩, fun hn => absurd hna hn⟩
      · intro k2 hk2
        exact lookupKey_updateVal_other kv.1 k2 _ hk2 acc
      · intro _
        refine ⟨fun hno => ?_, fun vs2 hvs2 => ?_⟩
        · exact absurd hno (by simp)
        · simp only [Option.some_inj, CombVal.clist.injEq] at hvs2
          rw [← hvs2]
          exact lookupKey_updateVal_self kv.1 _ acc _ hl
      · intro hn
        exact absurd hna hn
  · obtain ⟨xs, hxs⟩ := hv hna
    cases hl : lookupKey kv.1 acc with
    | none =>
      refine ⟨acc ++ [(kv.1, .carr xs)], ?_, ?_, ?_, ?_, ?_⟩
      · simp only [processPair, if_neg hna, hl, hxs]
      · exact accWF_append acc kv.1 _ hacc
          ⟨fun hn => absurd hn hna, fun _ => ⟨xs, rfl⟩⟩
      · intro k2 hk2
        rw [lookupKey_append, if_neg (fun hx => hk2 hx.symm)]
        cases lookupKey k2 acc <;> simp [Option.orElse]
      · intro hn
        exact absurd hn hna
      · intro _ xs2 hxs2
        rw [hxs] at hxs2
        simp only [LCVal.varr.injEq] at hxs2
        subst hxs2
        refine ⟨fun _ => ?_, fun ys hys => ?_⟩
        · rw [lookupKey_append, hl]
          simp [Option.orElse]
        · exact absurd hys (by simp)
    | some w =>
      obtain ⟨ys, hw⟩ :=
        (hacc (kv.1, w) (lookupKey_mem kv.1 acc w hl)).2 hna
      simp only at hw
      subst hw
      refine ⟨updateVal acc kv.1 (.carr (ys ++ xs)), ?_, ?_, ?_, ?_, ?_⟩
      · simp only [processPair, if_neg hna, hl, hxs]
      · exact accWF_updateVal acc kv.1 _ hacc
          ⟨fun hn => absurd hn hna, fun _ => ⟨ys ++ xs, rfl⟩⟩
      · intro k2 hk2
        exact lookupKey_updateVal_other kv.1 k2 _ hk2 acc
      · intro hn
        exact absurd hn hna
      · intro _ xs2 hxs2
        rw [hxs] at hxs2
        simp only [LCVal.varr.injEq] at hxs2
        subst hxs2
        refine ⟨fun hno => ?_, fun ys2 hys2 => ?_⟩
        · exact absurd hno (by simp)
        · simp only [Option.some_inj, CombVal.carr.injEq] at hys2
          rw [← hys2]
          exact lookupKey_updateVal_self kv.1 _ acc _ hl

theorem lookupKey_eq_none {β : Type} (k : String) :
    ∀ (l : List (String × β)), k ∉ l.map Prod.fst → lookupKey k l = none := by
  intro l
  induction l with
  | nil => intro _; rfl
  | cons kv rest ih =>
    intro hk
    rw [List.map_cons] at hk
    rw [lookupKey_cons, if_neg (fun hx => hk (List.mem_cons.mpr (Or.inl hx.symm)))]
    exact ih (fun hx => hk (List.mem_cons.mpr (Or.inr hx)))

theorem processPairs_spec :
    ∀ (f : List (String × LCVal)) (acc : List (String × CombVal)),
      accWF acc →
      (∀ kv ∈ f, kv.1 ∉ non_array_keys → ∃ xs, kv.2 = LCVal.varr xs) →
      ∃ acc2, processPairs acc f = some acc2 ∧ accWF acc2
        ∧ (∀ k2, lookupKey k2 f = none → lookupKey k2 acc2 = lookupKey k2 acc)
        ∧ ((f.map Prod.fst).Nodup → ∀ k2 v, lookupKey k2 f = some v →
            (k2 ∈ non_array_keys →
              (lookupKey k2 acc = none →
                lookupKey k2 acc2 = some (CombVal.clist [v]))
              ∧ (∀ vs, lookupKey k2 acc = some (CombVal.clist vs) →
                lookupKey k2 acc2 = some (CombVal.clist (vs ++ [v]))))
            ∧ (k2 ∉ non_array_keys → ∀ xs, v = LCVal.varr xs →
              (lookupKey k2 acc = none →
                lookupKey k2 acc2 = some (CombVal.carr xs))
              ∧ (∀ ys, lookupKey k2 acc = some (CombVal.carr ys) →
                lookupKey k2 acc2 = some (CombVal.carr (ys ++ xs))))) := by
  intro f
  induction f with
  | nil =>
    intro acc hacc _
    refine ⟨acc, rfl, hacc, fun _ _ => rfl, fun _ k2 v hlk => ?_⟩
    exact absurd hlk (by simp [lookupKey])
  | cons kv rest ih =>
    intro acc hacc hf
    obtain ⟨acc1, hp1, hwf1, hframe1, hself_na, hself_arr⟩ :=
      processPair_spec acc kv hacc (hf kv (List.mem_cons_self kv rest))
    obtain ⟨acc2, hp2, hwf2, hframe2, htrack2⟩ :=
      ih acc1 hwf1 (fun kv2 h2 => hf kv2 (List.mem_cons.mpr (Or.inr h2)))
    refine ⟨acc2, ?_, hwf2, ?_, ?_⟩
    · simp only [processPairs, hp1, hp2]
    · intro k2 hlk
      rw [lookupKey_cons] at hlk
      by_cases hk : kv.1 = k2
      · rw [if_pos hk] at hlk
        exact absurd hlk (by simp)
      · rw [if_neg hk] at hlk
        rw [hframe2 k2 hlk, hframe1 k2 (fun hx => hk hx.symm)]
    · intro hnd k2 v hlk
      rw [List.map_cons, List.nodup_cons] at hnd
      rw [lookupKey_cons] at hlk
      by_cases hk : kv.1 = k2
      · rw [if_pos hk] at hlk
        simp only [Option.some_inj] at hlk
        have hrest : lookupKey k2 rest = none :=
          lookupKey_eq_none k2 rest (hk ▸ hnd.1)
        have hfr2 := hframe2 k2 hrest
        subst hk
        subst hlk
        refine ⟨fun hin => ?_, fun hin => ?_⟩
        · obtain ⟨hn1, hn2⟩ := hself_na hin
          exact ⟨fun h0 => by rw [hfr2]; exact hn1 h0,
                 fun vs hvs => by rw [hfr2]; exact hn2 vs hvs⟩
        · intro xs hxs
          obtain ⟨hn1, hn2⟩ := hself_arr hin xs hxs
          exact ⟨fun h0 => by rw [hfr2]; exact hn1 h0,
                 fun ys hys => by rw [hfr2]; exact hn2 ys hys⟩
      · rw [if_neg hk] at hlk
        have hfr1 := hframe1 k2 (fun hx => hk hx.symm)
        obtain ⟨ht1, ht2⟩ := htrack2 hnd.2 k2 v hlk
        refine ⟨fun hin => ?_, fun hin => ?_⟩
        · obtain ⟨hn1, hn2⟩ := ht1 hin
          exact ⟨fun h0 => hn1 (by rw [hfr1]; exact h0),
                 fun vs hvs => hn2 vs (by rw [hfr1]; exact hvs)⟩
        · intro xs hxs
          obtain ⟨hn1, hn2⟩ := ht2 hin xs hxs
          exact ⟨fun h0 => hn1 (by rw [hfr1]; exact h0),
                 fun ys hys => hn2 ys (by rw [hfr1]; exact hys)⟩

theorem processFile_spec (acc : List (String × CombVal))
    (f : List (String × LCVal)) (hacc : accWF acc) (hwf : wfFile f) :
    ∃ acc2, processFile acc f = some acc2 ∧ accWF acc2
      ∧ (∀ k2, lookupKey k2 f = none → lookupKey k2 acc2 = lookupKey k2 acc)
      ∧ (∀ k2 v, lookupKey k2 f = some v →
          (k2 ∈ non_array_keys →
            (lookupKey k2 acc = none →
              lookupKey k2 acc2 = some (CombVal.clist [v]))
            ∧ (∀ vs, lookupKey k2 acc = some (CombVal.clist vs) →
              lookupKey k2 acc2 = some (CombVal.clist (vs ++ [v]))))
          ∧ (k2 ∉ non_array_keys → ∀ xs, v = LCVal.varr xs →
            (lookupKey k2 acc = none →
              lookupKey k2 acc2 = some (CombVal.carr xs))
            ∧ (∀ ys, lookupKey k2 acc = some (CombVal.carr ys) →
              lookupKey k2 acc2 = some (CombVal.carr (ys ++ xs))))) := by
  obtain ⟨htmin, hvals, hnd⟩ := hwf
  cases hl : lookupKey "tmin" f with
  | none => rw [hl] at htmin; exact absurd htmin (by simp)
  | some w =>
    obtain ⟨acc2, hp, hwf2, hframe, htrack⟩ := processPairs_spec f acc hacc hvals
    refine ⟨acc2, ?_, hwf2, hframe, htrack hnd⟩
    simp only [processFile, hl]
    exact hp

theorem combineAux_spec (files : ℕ → Option (List (String × LCVal))) :
    ∀ (idxs : List ℕ) (acc : List (String × CombVal)),
      accWF acc →
      (∀ i ∈ idxs, ∀ f, files i = some f → wfFile f) →
      ∃ m, combineAux files idxs acc = some m ∧ accWF m
        ∧ (∀ k2, k2 ∉ non_array_keys →
            (∀ i ∈ idxs, ∀ f, files i = some f →
              ∃ xs, lookupKey k2 f = some (LCVal.varr xs)) →
            (∀ ys, lookupKey k2 acc = some (CombVal.carr ys) →
              lookupKey k2 m = some (CombVal.carr
                (ys ++ ((idxs.map (arrContrib files k2)).flatten))))
            ∧ (lookupKey k2 acc = none →
                ((∃ i ∈ idxs, (files i).isSome = true) →
                  lookupKey k2 m = some (CombVal.carr
                    ((idxs.map (arrContrib files k2)).flatten)))
                ∧ ((∀ i ∈ idxs, files i = none) → lookupKey k2 m = none)))
        ∧ (∀ k2, k2 ∈ non_array_keys →
            (∀ i ∈ idxs, ∀ f, files i = some f →
              (lookupKey k2 f).isSome = true) →
            (∀ vs, lookupKey k2 acc = some (CombVal.clist vs) →
              lookupKey k2 m = some (CombVal.clist
                (vs ++ ((idxs.map (listContrib files k2)).flatten))))
            ∧ (lookupKey k2 acc = none →
                ((∃ i ∈ idxs, (files i).isSome = true) →
                  lookupKey k2 m = some (CombVal.clist
                    ((idxs.map (listContrib files k2)).flatten)))
                ∧ ((∀ i ∈ idxs, files i = none) → lookupKey k2 m = none))) := by
  intro idxs
  induction idxs with
  | nil =>
    intro acc hacc _
    refine ⟨acc, rfl, hacc, fun k2 _ _ => ?_, fun k2 _ _ => ?_⟩
    · refine ⟨fun ys hys => by simpa using hys, fun h0 => ?_⟩
      exact ⟨fun hex => by simp at hex, fun _ => h0⟩
    · refine ⟨fun vs hvs => by simpa using hvs, fun h0 => ?_⟩
      exact ⟨fun hex => by simp at hex, fun _ => h0⟩
  | cons i idxs ih =>
    intro acc hacc hwfs
    cases hfi : files i with
    | none =>
      obtain ⟨m, hca, hwfm, harrM, hlistM⟩ :=
        ih acc hacc (fun j hj f hf => hwfs j (List.mem_cons.mpr (Or.inr hj)) f hf)
      have hcontrA : ∀ k2, arrContrib files k2 i = [] := by
        intro k2; rw [arrContrib, hfi]
      have hcontrL : ∀ k2, listContrib files k2 i = [] := by
        intro k2; rw [listContrib, hfi]
      refine ⟨m, ?_, hwfm, fun k2 hk2 hbound => ?_, fun k2 hk2 hbound => ?_⟩
      · simp only [combineAux, hfi]
        exact hca
      · obtain ⟨hsome, hnone⟩ := harrM k2 hk2
          (fun j hj f hf => hbound j (List.mem_cons.mpr (Or.inr hj)) f hf)
        rw [List.map_cons, hcontrA k2]
        simp only [List.flatten_cons, List.nil_append]
        refine ⟨hsome, fun h0 => ?_⟩
        obtain ⟨hex, hall⟩ := hnone h0
        refine ⟨fun hx => ?_, fun hx => ?_⟩
        · rcases hx with ⟨j, hj, hjs⟩
          rcases List.mem_cons.mp hj with hj1 | hj1
          · rw [hj1, hfi] at hjs; exact absurd hjs (by simp)
          · exact hex ⟨j, hj1, hjs⟩
        · exact hall (fun j hj => hx j (List.mem_cons.mpr (Or.inr hj)))
      · obtain ⟨hsome, hnone⟩ := hlistM k2 hk2
          (fun j hj f hf => hbound j (List.mem_cons.mpr (Or.inr hj)) f hf)
        rw [List.map_cons, hcontrL k2]
        simp only [List.flatten_cons, List.nil_append]
        refine ⟨hsome, fun h0 => ?_⟩
        obtain ⟨hex, hall⟩ := hnone h0
        refine ⟨fun hx => ?_, fun hx => ?_⟩
        · rcases hx with ⟨j, hj, hjs⟩
          rcases List.mem_cons.mp hj with hj1 | hj1
          · rw [hj1, hfi] at hjs; exact absurd hjs (by simp)
          · exact hex ⟨j, hj1, hjs⟩
        · exact hall (fun j hj => hx j (List.mem_cons.mpr (Or.inr hj)))
    | some f =>
      have hwf_f : wfFile f := hwfs i (List.mem_cons_self i idxs) f hfi
      obtain ⟨acc1, hpf, hwf1, hframe1, htrack1⟩ :=
        processFile_spec acc f hacc hwf_f
      obtain ⟨m, hca, hwfm, harrM, hlistM⟩ :=
        ih acc1 hwf1 (fun j hj g hg => hwfs j (List.mem_cons.mpr (Or.inr hj)) g hg)
      refine ⟨m, ?_, hwfm, fun k2 hk2 hbound => ?_, fun k2 hk2 hbound => ?_⟩
      · simp only [combineAux, hfi, hpf]
        exact hca
      · obtain ⟨xsi, hxsi⟩ := hbound i (List.mem_cons_self i idxs) f hfi
        have hcontr : arrContrib files k2 i = xsi := by
          simp only [arrContrib, hfi, hxsi]
        obtain ⟨hsomeM, hnoneM⟩ := harrM k2 hk2
          (fun j hj g hg => hbound j (List.mem_cons.mpr (Or.inr hj)) g hg)
        obtain ⟨hna_t, harr_t⟩ := htrack1 k2 (LCVal.varr xsi) hxsi
        obtain ⟨ht_none, ht_some⟩ := harr_t hk2 xsi rfl
        rw [List.map_cons, hcontr]
        simp only [List.flatten_cons]
        refine ⟨fun ys hys => ?_, fun h0 => ?_⟩
        · have h1 : lookupKey k2 acc1 = some (CombVal.carr (ys ++ xsi)) :=
            ht_some ys hys
          have := hsomeM (ys ++ xsi) h1
          rw [this]
          rw [List.append_assoc]
        · have h1 : lookupKey k2 acc1 = some (CombVal.carr xsi) := ht_none h0
          have := hsomeM xsi h1
          exact ⟨fun _ => this, fun hall =>
            absurd hfi (by rw [hall i (List.mem_cons_self i idxs)]; simp)⟩
      · have hvi : (lookupKey k2 f).isSome = true :=
          hbound i (List.mem_cons_self i idxs) f hfi
        obtain ⟨vi, hvi2⟩ := Option.isSome_iff_exists.mp hvi
        have hcontr : listContrib files k2 i = [vi] := by
          simp only [listContrib, hfi, hvi2]
        obtain ⟨hsomeM, hnoneM⟩ := hlistM k2 hk2
          (fun j hj g hg => hbound j (List.mem_cons.mpr (Or.inr hj)) g hg)
        obtain ⟨hna_t, harr_t⟩ := htrack1 k2 vi hvi2
        obtain ⟨ht_none, ht_some⟩ := hna_t hk2
        rw [List.map_cons, hcontr]
        simp only [List.flatten_cons]
        refine ⟨fun vs hvs => ?_, fun h0 => ?_⟩
        · have h1 : lookupKey k2 acc1 = some (CombVal.clist (vs ++ [vi])) :=
            ht_some vs hvs
          have := hsomeM (vs ++ [vi]) h1
          rw [this]
          rw [List.append_assoc]
        · have h1 : lookupKey k2 acc1 = some (CombVal.clist [vi]) := ht_none h0
          have := hsomeM [vi] h1
          exact ⟨fun _ => this, fun hall =>
            absurd hfi (by rw [hall i (List.mem_cons_self i idxs)]; simp)⟩

/-- C6: `combine_lightcurve_results` combines the per-section result files
by array concatenation.  For well-formed result files (dictionaries with a
`tmin` entry whose non-listed keys hold arrays), at least one of which
exists, and a key bound in every existing file: if the key is not in the
non-array list, the combined value is the concatenation of that key's
arrays over all sections whose file exists, in increasing section-index
order (missing sections contribute nothing and do not abort the
combination); if the key is in the non-array list, the values are collected
into a list in the same order. -/
theorem combine_results_spec (files : ℕ → Option (List (String × LCVal)))
    (n : ℕ) (k : String)
    (hwfs : ∀ i, i < n → ∀ f, files i = some f → wfFile f)
    (hex : ∃ i, i < n ∧ (files i).isSome = true)
    (harr : k ∉ non_array_keys →
      ∀ i, i < n → ∀ f, files i = some f →
        ∃ xs, lookupKey k f = some (LCVal.varr xs))
    (hlist : k ∈ non_array_keys →
      ∀ i, i < n → ∀ f, files i = some f → (lookupKey k f).isSome = true) :
    ∃ m, combine_lightcurve_results files n = some m
      ∧ (k ∉ non_array_keys →
          lookupKey k m = some (CombVal.carr
            (((List.range n).map (arrContrib files k)).flatten)))
      ∧ (k ∈ non_array_keys →
          lookupKey k m = some (CombVal.clist
            (((List.range n).map (listContrib files k)).flatten))) := by
  obtain ⟨m, hc, hwfm, harrM, hlistM⟩ :=
    combineAux_spec files (List.range n) []
      (fun kv hkv => absurd hkv (by simp))
      (fun i hi f hf => hwfs i (List.mem_range.mp hi) f hf)
  obtain ⟨j, hj, hjs⟩ := hex
  have hexr : ∃ i ∈ List.range n, (files i).isSome = true :=
    ⟨j, List.mem_range.mpr hj, hjs⟩
  refine ⟨m, hc, fun hk => ?_, fun hk => ?_⟩
  · obtain ⟨_, hnone⟩ := harrM k hk
      (fun i hi f hf => harr hk i (List.mem_range.mp hi) f hf)
    exact (hnone rfl).1 hexr
  · obtain ⟨_, hnone⟩ := hlistM k hk
      (fun i hi f hf => hlist hk i (List.mem_range.mp hi) f hf)
    exact (hnone rfl).1 hexr

/-- C6, witness: two sections, the middle one missing, with a single array
key `tmin`; the combination concatenates the two arrays and skips the
missing section. -/
theorem combine_results_spec_witness :
    ∃ m, combine_lightcurve_results
        (fun i => if i = 0 then some [("tmin", LCVal.varr [0, 5])]
          else if i = 2 then some [("tmin", LCVal.varr [10])] else none) 3
        = some m
      ∧ ("tmin" ∉ non_array_keys →
          lookupKey "tmin" m = some (CombVal.carr
            (((List.range 3).map (arrContrib
              (fun i => if i = 0 then some [("tmin", LCVal.varr [0, 5])]
                else if i = 2 then some [("tmin", LCVal.varr [10])] else none)
              "tmin")).flatten)))
      ∧ ("tmin" ∈ non_array_keys →
          lookupKey "tmin" m = some (CombVal.clist
            (((List.range 3).map (listContrib
              (fun i => if i = 0 then some [("tmin", LCVal.varr [0, 5])]
                else if i = 2 then some [("tmin", LCVal.varr [10])] else none)
              "tmin")).flatten))) :=
  combine_results_spec
    (fun i => if i = 0 then some [("tmin", LCVal.varr [0, 5])]
      else if i = 2 then some [("tmin", LCVal.varr [10])] else none) 3 "tmin"
    (by
      intro i hi f hf
      rcases (show i = 0 ∨ i = 1 ∨ i = 2 by omega) with h0 | h0 | h0 <;> subst h0
      · simp at hf
        subst hf
        refine ⟨rfl, ?_, by decide⟩
        intro kv hkv hna
        rcases List.mem_singleton.mp hkv with h1
        rw [h1]
        exact ⟨[0, 5], rfl⟩
      · simp at hf
      · simp at hf
        subst hf
        refine ⟨rfl, ?_, by decide⟩
        intro kv hkv hna
        rcases List.mem_singleton.mp hkv with h1
        rw [h1]
        exact ⟨[10], rfl⟩)
    ⟨0, by omega, rfl⟩
    (by
      intro _ i hi f hf
      rcases (show i = 0 ∨ i = 1 ∨ i = 2 by omega) with h0 | h0 | h0 <;> subst h0
      · simp at hf
        subst hf
        exact ⟨[0, 5], rfl⟩
      · simp at hf
      · simp at hf
        subst hf
        exact ⟨[10], rfl⟩)
    (fun hk => absurd hk (by decide))

end Fermipipe
